import Mathlib

/-!
Verification of the download-and-transcribe pipeline (`transcribe.py`).

Texts are modelled as `List Char`.  Pure text-processing functions of the
source (`remove_pagination_breaks`, `sophisticated_sentence_splitter`,
`clean_filename`) are translated character-by-character; Python's regular
expressions are unfolded into explicit left-to-right scans with the same
leftmost-match, ordered-alternative semantics as `re.split` / `re.sub`.
Character classes (`\s`, `\w`, `[a-z]`, …) are modelled on their ASCII
fragment, which is exact for the constructs the source uses on ASCII text.
-/

/-- Python whitespace: the characters matched by the regex class `\s` and
stripped by `str.strip()` (ASCII fragment). -/
def isPySpace (c : Char) : Bool :=
  c = ' ' || c = '\t' || c = '\n' || c = '\r' || c = '\x0b' || c = '\x0c'

/-- The regex class `[a-z]` used by the dehyphenation pattern. -/
def isAsciiLower (c : Char) : Bool := 'a' ≤ c && c ≤ 'z'

/-- The regex class `[A-Z]` used by the soft-wrap-join pattern. -/
def isAsciiUpper (c : Char) : Bool := 'A' ≤ c && c ≤ 'Z'

/-- The regex class `\w` (word character), ASCII fragment: alphanumeric or
underscore. -/
def isPyWordChar (c : Char) : Bool := c.isAlphanum || c = '_'

/-- Right-trim: drop trailing Python whitespace. -/
def trimEnd : List Char → List Char
  | [] => []
  | c :: rest =>
    let t := trimEnd rest
    if t = [] then (if isPySpace c then [] else [c]) else c :: t

/-- Python's `str.strip()`: drop leading and trailing whitespace. -/
def pyStrip (l : List Char) : List Char := trimEnd (l.dropWhile isPySpace)

/-!  `remove_pagination_breaks` (transcribe.py lines 205-208).

First pass, `re.sub(r'-(\n)(?=[a-z])', '', text)`: scanning left to right, a
hyphen immediately followed by a line break whose next character is a
lowercase letter is deleted together with the line break (the lookahead
letter is not consumed).  Second pass,
`re.sub(r'(?<=\w)(?<![.?!-]|\d)\n(?![\nA-Z])', ' ', text)`: a line break
preceded by a word character that is not `.`, `?`, `!`, `-` or a digit and
not followed by another line break or an uppercase letter is replaced by a
single space.  Lookbehinds inspect the character of the scanned string just
before the match; since every match of either pattern consumes only `-\n`
resp. `\n`, that character is never part of an earlier replacement. -/

/-- First pass of `remove_pagination_breaks`: delete `-\n` when followed by a
lowercase letter (left-to-right scan of `re.sub`, no rescanning of the
produced text). -/
def dehyphenate : List Char → List Char
  | [] => []
  | [c] => [c]
  | [c, d] => [c, d]
  | c :: d :: e :: rest =>
    if c = '-' && d = '\n' && isAsciiLower e then dehyphenate (e :: rest)
    else c :: dehyphenate (d :: e :: rest)

/-- Lookbehind `(?<=\w)(?<![.?!-]|\d)` of the soft-wrap-join pattern, applied
to the character preceding the line break (`none` at the start of text). -/
def prevOkForJoin : Option Char → Bool
  | none => false
  | some p => isPyWordChar p && !(p = '.' || p = '?' || p = '!' || p = '-') && !p.isDigit

/-- Lookahead `(?![\nA-Z])` of the soft-wrap-join pattern, applied to the
text following the line break. -/
def nextOkForJoin : List Char → Bool
  | [] => true
  | c :: _ => !(c = '\n' || isAsciiUpper c)

/-- Second pass of `remove_pagination_breaks`: replace a qualifying line
break with one space; `prev` is the character of the scanned string just
before the current position. -/
def softWrapJoin : Option Char → List Char → List Char
  | _, [] => []
  | prev, c :: rest =>
    if c = '\n' && prevOkForJoin prev && nextOkForJoin rest
    then ' ' :: softWrapJoin (some '\n') rest
    else c :: softWrapJoin (some c) rest

/-- `remove_pagination_breaks(text)` (transcribe.py lines 205-208). -/
def remove_pagination_breaks (text : List Char) : List Char :=
  softWrapJoin none (dehyphenate text)

/-!  The heuristic `sophisticated_sentence_splitter` (transcribe.py lines
66-82).  The split pattern is
`\.(?!\s*(com|net|org|io)\s)(?![0-9])|[.!?]\s+|\.\.\.(?=\s)`;
`re.split` scans left to right, at each position trying the three
alternatives in order, and removes the matched span; the single capturing
group sits inside a negative lookahead, so it never participates in a
successful match and `re.split` interleaves `None` into the result for every
match. -/

/-- Inner pattern `\s*(com|net|org|io)\s` of the first alternative's negative
lookahead, tested right after a period: skip whitespace greedily, then one of
the four domain tokens, then one further whitespace character.  (The token
begins with a letter, so no backtracking on `\s*` can succeed beyond the
maximal whitespace run.) -/
def startsWithTld : List Char → Bool
  | 'c' :: 'o' :: 'm' :: c :: _ => isPySpace c
  | 'n' :: 'e' :: 't' :: c :: _ => isPySpace c
  | 'o' :: 'r' :: 'g' :: c :: _ => isPySpace c
  | 'i' :: 'o' :: c :: _ => isPySpace c
  | _ => false

/-- The negative-lookahead body of alternative 1, applied to the text after
the period. -/
def tldLookahead (rest : List Char) : Bool :=
  startsWithTld (rest.dropWhile isPySpace)

/-- Does the text start with a digit (regex `[0-9]`)? -/
def headIsDigit : List Char → Bool
  | c :: _ => c.isDigit
  | [] => false

/-- Does the text start with Python whitespace (regex `\s`)? -/
def headIsSpace : List Char → Bool
  | c :: _ => isPySpace c
  | [] => false

/-- Try the three alternatives of the split pattern, in order, at the current
position: `c` is the character at the position, `rest` the text after it.
`some k` means the match consumes `c` together with `k` further characters of
`rest`. -/
def matchLen (c : Char) (rest : List Char) : Option Nat :=
  if c = '.' && !tldLookahead rest && !headIsDigit rest then
    some 0
  else if (c = '.' || c = '!' || c = '?') && headIsSpace rest then
    some (rest.takeWhile isPySpace).length
  else
    match c, rest with
    | '.', '.' :: '.' :: r => if headIsSpace r then some 2 else none
    | _, _ => none

/-- The scan of `re.split`: walk the text; at a match emit the accumulated
piece followed by `none` (the non-participating capture group) and continue
after the matched span; otherwise accumulate the character.  `acc` holds the
current piece reversed.  `fuel` only forces structural termination: every
step consumes at least one character, so `fuel = length of the text` never
runs out (the fuel-exhausted clause flushes the remaining text and is
unreachable from `sophisticated_sentence_splitter`). -/
def splitScanF : Nat → List Char → List Char → List (Option (List Char))
  | 0, acc, cs => [some (acc.reverse ++ cs)]
  | _ + 1, acc, [] => [some acc.reverse]
  | fuel + 1, acc, c :: rest =>
    match matchLen c rest with
    | some k => some acc.reverse :: none :: splitScanF fuel [] (rest.drop k)
    | none => splitScanF fuel (c :: acc) rest

/-- The quote-balancing re-merge loop (transcribe.py lines 73-81): skip
`None` entries, accumulate fragments until the running fragment holds an even
number of `"` characters, emit it stripped, and after the loop emit the
non-empty leftover stripped. -/
def mergeQuotes : List (Option (List Char)) → List Char → List (List Char)
  | [], temp => if temp = [] then [] else [pyStrip temp]
  | none :: rest, temp => mergeQuotes rest temp
  | some s :: rest, temp =>
    let t := temp ++ s
    if t.count '\"' % 2 = 0 then pyStrip t :: mergeQuotes rest [] else mergeQuotes rest t

/-- Final comprehension `[s.strip() for s in refined_sentences if s.strip()]`
(transcribe.py line 82). -/
def stripAndDropEmpty (l : List (List Char)) : List (List Char) :=
  (l.filter (fun s => !(pyStrip s).isEmpty)).map pyStrip

/-- The heuristic `sophisticated_sentence_splitter(text)` (transcribe.py
lines 66-82): pagination cleanup, regex split, quote-balancing re-merge,
strip-and-drop-empty. -/
def sophisticated_sentence_splitter (text : List Char) : List (List Char) :=
  let cleaned := remove_pagination_breaks text
  stripAndDropEmpty (mergeQuotes (splitScanF cleaned.length [] cleaned) [])

/-!  Helper lemmas about `trimEnd`, `pyStrip` and character conservation. -/

/-- Characters that survive every lossy step of the splitter pipeline:
everything except whitespace, the separator punctuation `.` `!` `?` removed
by `re.split`, and the hyphens removed by dehyphenation. -/
def keepChar (c : Char) : Bool :=
  !(isPySpace c || c = '.' || c = '!' || c = '?' || c = '-')

/-- Keep only the conserved characters of a text. -/
def keepF (l : List Char) : List Char := l.filter keepChar

/-- Drop all whitespace from a text (the "whitespace normalization" of the
spec). -/
def removeWs (l : List Char) : List Char := l.filter (fun c => !isPySpace c)

/-- Concatenation of the pieces produced by the split scan, skipping the
`None` capture-group entries. -/
def joinPieces : List (Option (List Char)) → List Char
  | [] => []
  | none :: rest => joinPieces rest
  | some s :: rest => s ++ joinPieces rest

/-!  `clean_filename` (transcribe.py lines 85-89). -/

/-- ASCII model of `str.lower()` (exact for the ASCII letters the sanitized
titles consist of). -/
def pyToLower (c : Char) : Char :=
  match c with
  | 'A' => 'a' | 'B' => 'b' | 'C' => 'c' | 'D' => 'd' | 'E' => 'e' | 'F' => 'f'
  | 'G' => 'g' | 'H' => 'h' | 'I' => 'i' | 'J' => 'j' | 'K' => 'k' | 'L' => 'l'
  | 'M' => 'm' | 'N' => 'n' | 'O' => 'o' | 'P' => 'p' | 'Q' => 'q' | 'R' => 'r'
  | 'S' => 's' | 'T' => 't' | 'U' => 'u' | 'V' => 'v' | 'W' => 'w' | 'X' => 'x'
  | 'Y' => 'y' | 'Z' => 'z'
  | c => c

/-- The regex class `[-\s]` of `clean_filename`'s second substitution. -/
def isSpaceOrHyphen (c : Char) : Bool := c = '-' || isPySpace c

/-- First substitution of `clean_filename`: `re.sub('[^\w\s-]', '', title)`
deletes every character that is not a word character, whitespace or a
hyphen. -/
def stripNonWord (l : List Char) : List Char :=
  l.filter (fun c => isPyWordChar c || isPySpace c || c = '-')

/-- Second substitution of `clean_filename`: `re.sub('[-\s]+', '_', ...)`
replaces each maximal run of hyphens/whitespace by a single underscore
(left-to-right scan; the fuel only forces structural termination and never
runs out at `fuel = length`). -/
def collapseRunsF : Nat → List Char → List Char
  | 0, l => l
  | _ + 1, [] => []
  | fuel + 1, c :: rest =>
    if isSpaceOrHyphen c then '_' :: collapseRunsF fuel (rest.dropWhile isSpaceOrHyphen)
    else c :: collapseRunsF fuel rest

/-- `re.sub('[-\s]+', '_', ·)` at sufficient fuel. -/
def collapseRuns (l : List Char) : List Char := collapseRunsF l.length l

/-- `clean_filename(title)` (transcribe.py lines 85-89): strip non-word
characters, collapse hyphen/whitespace runs to `_`, `str.strip()`, then
`str.lower()`. -/
def clean_filename (title : List Char) : List Char :=
  (pyStrip (collapseRuns (stripNonWord title))).map pyToLower

/-!  `download_audio` (transcribe.py lines 91-111).  The file system is
modelled as the list of paths that exist (`os.path.exists` is membership);
`os.path.join` uses the POSIX separator. -/

/-- Decimal digit to character. -/
def digitChar (n : Nat) : Char :=
  match n with
  | 0 => '0' | 1 => '1' | 2 => '2' | 3 => '3' | 4 => '4'
  | 5 => '5' | 6 => '6' | 7 => '7' | 8 => '8' | _ => '9'

/-- Character to decimal digit (inverse of `digitChar` on digits). -/
def digitVal (c : Char) : Nat :=
  match c with
  | '0' => 0 | '1' => 1 | '2' => 2 | '3' => 3 | '4' => 4
  | '5' => 5 | '6' => 6 | '7' => 7 | '8' => 8 | _ => 9

/-- Fuelled most-significant-first decimal printer (`acc` holds the digits
already produced, least significant first in recursion order). -/
def natToDigitsF : Nat → Nat → List Char → List Char
  | 0, _, acc => acc
  | fuel + 1, n, acc =>
    if n < 10 then digitChar n :: acc
    else natToDigitsF fuel (n / 10) (digitChar (n % 10) :: acc)

/-- Decimal representation of a natural number; models Python's
`str(counter)` in the f-string `f"{base_filename}_{counter}"`. -/
def natToDigits (n : Nat) : List Char := natToDigitsF (n + 1) n []

/-- Numeric value of a digit string (used to prove `natToDigits` injective). -/
def digitsToNat (l : List Char) : Nat := l.foldl (fun a c => a * 10 + digitVal c) 0

/-- `os.path.join('downloaded_audio', f"{filename}.mp3")`. -/
def mkAudioPath (filename : List Char) : List Char :=
  "downloaded_audio/".toList ++ filename ++ ".mp3".toList

/-- The n-th candidate file name the collision-avoidance loop tries for a
base name: the base itself, then `base_1`, `base_2`, …. -/
def candName (base : List Char) : Nat → List Char
  | 0 => base
  | n + 1 => base ++ '_' :: natToDigits (n + 1)

/-- The collision-avoidance loop of `download_audio` (lines 94-100): while
the candidate path exists, move to `f"{base_filename}_{counter}"` and bump
the counter.  The fuel only forces termination; `download_audio` passes
`fs.length + 1`, which never runs out because the candidate names are
pairwise distinct (theorem `probeFree_not_mem`). -/
def probeFree (fs : List (List Char)) (base : List Char) :
    Nat → Nat → List Char → List Char × List Char
  | 0, _, filename => (filename, mkAudioPath filename)
  | fuel + 1, counter, filename =>
    if mkAudioPath filename ∈ fs then
      probeFree fs base fuel (counter + 1) (base ++ '_' :: natToDigits counter)
    else (filename, mkAudioPath filename)

/-!  Data model of videos, segments and transcripts. -/

/-- A transcript segment as produced by the transcription engine:
`{start, end, text, avg_logprob}`.  The float times and log-probability are
modelled as rationals. -/
structure WhisperSegment where
  start : ℚ
  end_ : ℚ
  text : List Char
  avg_logprob : ℚ
deriving DecidableEq

/-- The behavior of the best audio-only stream of a video; `downloadOk`
says whether `stream.download` succeeds (a transport error is caught inside
`download_audio`). -/
structure AudioStream where
  downloadOk : Bool
deriving DecidableEq

/-- One logical video: the pytube handle reduced to the attributes the
pipeline reads, together with the transcription engine's behavior on this
video's audio (the segments it yields, or the exception it raises). -/
structure PyVideo where
  title : List Char
  stream : Option AudioStream
  engine : Except (List Char) (List WhisperSegment)

/-- `download_audio(video)` (transcribe.py lines 91-111), state-passing over
the list `fs` of paths existing on disk.  `Except` models an exception
escaping the function (the `ValueError` raised when no audio stream exists);
a transport error during `stream.download` is caught inside the function and
yields `(None, None)` with the error logged.  On success pytube's `download`
writes the file (the path joins `fs`) and returns the path it wrote. -/
def download_audio (fs : List (List Char)) (video : PyVideo) :
    Except (List Char) ((Option (List Char) × Option (List Char)) × List (List Char)) :=
  let filename := clean_filename video.title
  let probed := probeFree fs filename (fs.length + 1) 1 filename
  let filename1 := probed.1
  let audio_file_path := probed.2
  if audio_file_path ∈ fs then
    .ok ((some audio_file_path, some filename1), fs)
  else
    match video.stream with
    | none => .error ("No audio stream found for video: ".toList ++ video.title)
    | some st =>
      if st.downloadOk then
        .ok ((some audio_file_path, some filename1), audio_file_path :: fs)
      else
        .ok ((none, none), fs)

/-- Run `download_audio` n times for the same video, threading the
file-system state and collecting the successfully returned paths in order. -/
def repeatedDownload (video : PyVideo) : Nat → List (List Char) → List (List Char) × List (List Char)
  | 0, fs => ([], fs)
  | n + 1, fs =>
    match download_audio fs video with
    | .error _ => repeatedDownload video n fs
    | .ok ((some p, _), fs1) =>
      let r := repeatedDownload video n fs1
      (p :: r.1, r.2)
    | .ok ((none, _), fs1) => repeatedDownload video n fs1

/-!  `compute_transcript_with_whisper_from_audio_func` (transcribe.py lines
113-163), from the point where the engine has yielded its segments.  The
zero-segment early return (`return [], {}, "", [], …`, line 144) returns
empty placeholder values for every slot — an empty list where the combined
text would be and an empty dict where the metadata list would be; both are
modelled as the empty value of the slot's type — and, crucially, it returns
before the `with open(...)` write, so `writes` is empty in that case. -/

/-- Python's `round(x, 2)` on the rational model of the segment floats:
round half to even at two decimal places. -/
def pyRound2 (q : ℚ) : ℚ :=
  let scaled := q * 100
  let fl : ℤ := ⌊scaled⌋
  let frac := scaled - fl
  let n : ℤ :=
    if frac < 1 / 2 then fl
    else if 1 / 2 < frac then fl + 1
    else if fl % 2 = 0 then fl else fl + 1
  (n : ℚ) / 100

/-- One metadata record of the transcript (line 151-156). -/
structure SegMetadata where
  start : ℚ
  end_ : ℚ
  text : List Char
  avg_logprob : ℚ
deriving DecidableEq

/-- The metadata dict built for one segment. -/
def metadataOfSegment (s : WhisperSegment) : SegMetadata :=
  ⟨pyRound2 s.start, pyRound2 s.end_, s.text, pyRound2 s.avg_logprob⟩

/-- `f'generated_transcript_combined_texts/{audio_file_name}.md'`. -/
def transcriptPath (name : List Char) : List Char :=
  "generated_transcript_combined_texts/".toList ++ name ++ ".md".toList

/-- The values returned by the transcript computation, together with the
files it writes (path, content). -/
structure TranscriptOutput where
  combined_transcript_text : List Char
  metadata_dicts : List SegMetadata
  transcript_sentences : List (List Char)
  writes : List (List Char × List Char)
deriving DecidableEq

/-- `compute_transcript_with_whisper_from_audio_func` after the engine call:
the `if not segments:` early return, then the accumulation loop
(`combined += segment.text + "\n"`, metadata appended per segment), then the
transcript file write. -/
def compute_transcript_with_whisper (segments : List WhisperSegment)
    (audio_file_name : List Char) : TranscriptOutput :=
  if segments = [] then ⟨[], [], [], []⟩
  else
    let combined := segments.foldl (fun acc s => acc ++ s.text ++ ['\n']) []
    let metas := segments.foldl (fun acc s => acc ++ [metadataOfSegment s]) []
    ⟨combined, metas, [], [(transcriptPath audio_file_name, combined)]⟩

/-!  The per-video task of `process_video_or_playlist` (transcribe.py lines
186-199): `download_and_transcribe` acquires the semaphore, downloads,
transcribes when the download returned a truthy path and filename, and the
`except` clause converts any escaping exception into a log line carrying the
video's title.  `asyncio.gather` awaits all per-video tasks; the fold below
runs them in task order (one interleaving of the cooperative scheduler —
each video's outcome and log depend only on its own behavior, which is
exactly what the fault-isolation theorem states). -/

/-- Outcome of one video's task: completed normally, or its exception was
caught and logged at the per-video boundary. -/
inductive VideoOutcome where
  | done : VideoOutcome
  | failed : List Char → VideoOutcome
deriving DecidableEq

/-- The body and exception handler of `download_and_transcribe(video)`
(lines 187-197), returning the outcome, the audio file system, and the
transcript files written. -/
def download_and_transcribe (video : PyVideo) (fs : List (List Char)) :
    VideoOutcome × List (List Char) × List (List Char × List Char) :=
  match download_audio fs video with
  | .error e =>
    (.failed ("Error processing video ".toList ++ video.title ++ ": ".toList ++ e), fs, [])
  | .ok ((audio_path, audio_filename), fs1) =>
    match audio_path, audio_filename with
    | some p, some f =>
      if p ≠ [] ∧ f ≠ [] then
        match video.engine with
        | .error e =>
          (.failed ("Error processing video ".toList ++ video.title ++ ": ".toList ++ e), fs1, [])
        | .ok segs => (.done, fs1, (compute_transcript_with_whisper segs f).writes)
      else (.done, fs1, [])
    | _, _ => (.done, fs1, [])

/-- The whole run over the resolved list of videos (the `tasks` built at
line 198 and awaited by `asyncio.gather` at line 199): one outcome per
video. -/
def processAllVideos : List PyVideo → List (List Char) → List VideoOutcome × List (List Char)
  | [], fs => ([], fs)
  | v :: rest, fs =>
    let r := download_and_transcribe v fs
    let others := processAllVideos rest r.2.1
    (r.1 :: others.1, others.2)

/-- The outcome `download_and_transcribe` produces for a video, as a
function of that video alone (valid when the sanitized title is non-empty):
the two exceptions that can escape the body — the missing-stream
`ValueError` and an engine failure — are caught and logged with the video's
title; silent download failures and successes both complete normally. -/
def expectedOutcome (video : PyVideo) : VideoOutcome :=
  match video.stream with
  | none =>
    .failed ("Error processing video ".toList ++ video.title ++ ": ".toList ++
      ("No audio stream found for video: ".toList ++ video.title))
  | some st =>
    if st.downloadOk then
      match video.engine with
      | .error e =>
        .failed ("Error processing video ".toList ++ video.title ++ ": ".toList ++ e)
      | .ok _ => .done
    else .done

/-!  The download gate (transcribe.py lines 186-196).  Per video, the
`async with download_semaphore:` block contains the whole body: the
semaphore is acquired before `download_audio` starts and released by the
`async with` exit — after the transcription call, not after the download.
`videoActions` is the sequence of atomic phases one video's task performs
inside and around the gate; the small-step scheduler interleaves any number
of such tasks, decrementing the semaphore on acquire (only when positive)
and incrementing it on release. -/

/-- The atomic phases of one video's task. -/
inductive GateAction where
  | acquire : GateAction
  | download : GateAction
  | transcribe : GateAction
  | release : GateAction
deriving DecidableEq

/-- The phase sequence of `download_and_transcribe` for one video, read off
lines 189-195: acquire the semaphore, download, transcribe if the download
returned a usable file, and release the semaphore when the `async with`
block exits. -/
def videoActions (download_succeeds : Bool) : List GateAction :=
  [.acquire, .download] ++ (if download_succeeds then [.transcribe] else []) ++ [.release]

/-- One video's task at run time: does it currently hold the gate, and which
phases remain. -/
structure GateTask where
  holding : Bool
  rest : List GateAction
deriving DecidableEq

/-- Scheduler state: the tasks and the semaphore's current value. -/
structure SchedState where
  tasks : List GateTask
  sem : Nat
deriving DecidableEq

/-- Interleaving semantics: any task whose next phase is enabled may step.
`acquire` requires a positive semaphore and decrements it; `release`
increments it; `download`/`transcribe` leave it unchanged. -/
inductive SchedStep : SchedState → SchedState → Prop where
  | acquire (pre post : List GateTask) (r : List GateAction) (n : Nat) :
      SchedStep ⟨pre ++ ⟨false, .acquire :: r⟩ :: post, n + 1⟩ ⟨pre ++ ⟨true, r⟩ :: post, n⟩
  | download (pre post : List GateTask) (b : Bool) (r : List GateAction) (n : Nat) :
      SchedStep ⟨pre ++ ⟨b, .download :: r⟩ :: post, n⟩ ⟨pre ++ ⟨b, r⟩ :: post, n⟩
  | transcribe (pre post : List GateTask) (b : Bool) (r : List GateAction) (n : Nat) :
      SchedStep ⟨pre ++ ⟨b, .transcribe :: r⟩ :: post, n⟩ ⟨pre ++ ⟨b, r⟩ :: post, n⟩
  | release (pre post : List GateTask) (b : Bool) (r : List GateAction) (n : Nat) :
      SchedStep ⟨pre ++ ⟨b, .release :: r⟩ :: post, n⟩ ⟨pre ++ ⟨false, r⟩ :: post, n + 1⟩

/-- Initial state of a run: `asyncio.Semaphore(max_simultaneous_downloads)`
full, every task about to acquire. -/
def initSched (cap : Nat) (succs : List Bool) : SchedState :=
  ⟨succs.map (fun b => ⟨false, videoActions b⟩), cap⟩

/-- States reachable during a run. -/
inductive SchedReachable (cap : Nat) (succs : List Bool) : SchedState → Prop where
  | init : SchedReachable cap succs (initSched cap succs)
  | step {s s' : SchedState} :
      SchedReachable cap succs s → SchedStep s s' → SchedReachable cap succs s'

/-- Number of tasks currently holding the gate, i.e. inside their
`async with download_semaphore:` block. -/
def countHolding (tasks : List GateTask) : Nat := (tasks.filter (·.holding)).length

/-- Run-time well-formedness of one task: it either has not acquired yet
(its remaining phases are a full `videoActions` trace, or it is finished),
or it holds the gate and its remaining phases are a non-empty suffix of a
trace ending with the release. -/
def taskOK (t : GateTask) : Prop :=
  (t.holding = false ∧ (t.rest = videoActions true ∨ t.rest = videoActions false ∨ t.rest = [])) ∨
  (t.holding = true ∧ (t.rest = [.download, .transcribe, .release] ∨
    t.rest = [.transcribe, .release] ∨ t.rest = [.download, .release] ∨ t.rest = [.release]))

/-- The scheduler invariant: every task is well formed and the semaphore
value plus the number of gate holders equals the configured capacity. -/
def schedInv (cap : Nat) (s : SchedState) : Prop :=
  (∀ t ∈ s.tasks, taskOK t) ∧ s.sem + countHolding s.tasks = cap

/-- Every fragment except possibly the last holds an even number of `"`
characters (so every boundary between emitted sentences sits at an even
cumulative quote count). -/
def allButLastEven (l : List (List Char)) : Prop :=
  ∀ i, i + 1 < l.length → (l.getD i []).count '\"' % 2 = 0

theorem keepF_append (a b : List Char) : keepF (a ++ b) = keepF a ++ keepF b :=
  List.filter_append ..

theorem keepF_eq_nil_of_space {l : List Char} (h : ∀ c ∈ l, isPySpace c = true) :
    keepF l = [] := by
  simp only [keepF, List.filter_eq_nil_iff]
  intro c hc
  simp [keepChar, h c hc]

theorem keepF_nil : keepF [] = [] := rfl

theorem keepF_cons (c : Char) (l : List Char) :
    keepF (c :: l) = if keepChar c = true then c :: keepF l else keepF l :=
  List.filter_cons ..

theorem keepF_trimEnd (l : List Char) : keepF (trimEnd l) = keepF l := by
  induction l with
  | nil => rfl
  | cons c rest ih =>
    simp only [trimEnd]
    by_cases ht : trimEnd rest = []
    · have hrest : keepF rest = [] := by rw [← ih, ht]; rfl
      by_cases hsp : isPySpace c = true
      · have hkc : keepChar c = false := by simp [keepChar, hsp]
        simp [ht, hsp, keepF_cons, keepF_nil, hkc, hrest]
      · simp [ht, hsp, keepF_cons, keepF_nil, hrest]
    · simp [ht, keepF_cons, ih]

theorem keepF_dropWhileSpace (l : List Char) :
    keepF (l.dropWhile isPySpace) = keepF l := by
  conv_rhs => rw [← List.takeWhile_append_dropWhile (p := isPySpace) (l := l)]
  rw [keepF_append, keepF_eq_nil_of_space (fun c hc => List.mem_takeWhile_imp hc)]
  rfl

theorem keepF_pyStrip (l : List Char) : keepF (pyStrip l) = keepF l := by
  rw [pyStrip, keepF_trimEnd, keepF_dropWhileSpace]

theorem count_eq_count_keepF {c : Char} (hc : keepChar c = true) (l : List Char) :
    l.count c = (keepF l).count c :=
  (List.count_filter hc).symm

theorem count_quote_pyStrip (l : List Char) : (pyStrip l).count '\"' = l.count '\"' := by
  rw [count_eq_count_keepF (by decide) (pyStrip l), keepF_pyStrip,
    ← count_eq_count_keepF (by decide)]

theorem trimEnd_idem (l : List Char) : trimEnd (trimEnd l) = trimEnd l := by
  induction l with
  | nil => rfl
  | cons c rest ih =>
    simp only [trimEnd]
    by_cases ht : trimEnd rest = []
    · by_cases hsp : isPySpace c = true
      · simp [ht, hsp, trimEnd]
      · simp [ht, hsp, trimEnd]
    · simp only [if_neg ht, trimEnd, ih, if_neg ht]

theorem dropWhile_head_false (p : Char → Bool) (l : List Char) :
    l.dropWhile p = [] ∨ ∃ c cs, l.dropWhile p = c :: cs ∧ p c = false := by
  induction l with
  | nil => exact Or.inl rfl
  | cons c rest ih =>
    by_cases h : p c = true
    · simpa [List.dropWhile_cons, h] using ih
    · right
      exact ⟨c, rest, by simp [List.dropWhile_cons, h], by simpa using h⟩

theorem trimEnd_head_eq (c : Char) (l : List Char) :
    trimEnd (c :: l) = [] ∨ ∃ t, trimEnd (c :: l) = c :: t := by
  simp only [trimEnd]
  by_cases ht : trimEnd l = []
  · by_cases hsp : isPySpace c = true
    · simp [ht, hsp]
    · simp [ht, hsp]
  · simp [ht]

theorem pyStrip_idem (l : List Char) : pyStrip (pyStrip l) = pyStrip l := by
  unfold pyStrip
  rcases dropWhile_head_false isPySpace l with h | ⟨c, cs, h, hc⟩
  · simp [h, trimEnd]
  · rw [h]
    rcases trimEnd_head_eq c cs with h2 | ⟨t, h2⟩
    · rw [h2]; rfl
    · rw [h2, List.dropWhile_cons, hc]
      calc trimEnd (c :: t) = trimEnd (trimEnd (c :: cs)) := by rw [h2]
        _ = trimEnd (c :: cs) := trimEnd_idem _
        _ = c :: t := h2

theorem keepF_eq_nil_of_dropped {l : List Char} (h : ∀ c ∈ l, keepChar c = false) :
    keepF l = [] := by
  simp only [keepF, List.filter_eq_nil_iff]
  intro c hc
  simp [h c hc]

theorem keepChar_of_space {c : Char} (h : isPySpace c = true) : keepChar c = false := by
  simp [keepChar, h]

theorem take_length_takeWhile (p : Char → Bool) (l : List Char) :
    l.take (l.takeWhile p).length = l.takeWhile p := by
  induction l with
  | nil => rfl
  | cons c rest ih =>
    by_cases h : p c = true
    · simp [List.takeWhile_cons, h, ih]
    · simp [List.takeWhile_cons, h]

theorem matchLen_consumed {c : Char} {rest : List Char} {k : Nat}
    (h : matchLen c rest = some k) :
    keepChar c = false ∧ ∀ d ∈ rest.take k, keepChar d = false := by
  unfold matchLen at h
  split_ifs at h with h1 h2
  · obtain ⟨⟨hc, -⟩, -⟩ : (c = '.' ∧ tldLookahead rest = false) ∧ headIsDigit rest = false := by
      simpa using h1
    obtain rfl : (0 : Nat) = k := by simpa using h
    subst hc
    exact ⟨by decide, by simp⟩
  · obtain ⟨hc, -⟩ : (c = '.' ∨ c = '!' ∨ c = '?') ∧ headIsSpace rest = true := by
      simpa [or_assoc] using h2
    obtain rfl : (rest.takeWhile isPySpace).length = k := by simpa using h
    refine ⟨?_, ?_⟩
    · rcases hc with rfl | rfl | rfl <;> decide
    · rw [take_length_takeWhile]
      intro d hd
      exact keepChar_of_space (List.mem_takeWhile_imp hd)
  · split at h
    · split at h
      · obtain rfl : (2 : Nat) = k := by simpa using h
        refine ⟨by decide, ?_⟩
        intro d hd
        have hd2 : d = '.' := by
          simp only [List.take_succ_cons, List.take_zero, List.mem_cons,
            List.not_mem_nil, or_false] at hd
          rcases hd with rfl | rfl <;> rfl
        subst hd2
        decide
      · exact absurd h (by simp)
    · exact absurd h (by simp)

theorem keepF_splitScanF (fuel : Nat) :
    ∀ acc cs, keepF (joinPieces (splitScanF fuel acc cs)) = keepF acc.reverse ++ keepF cs := by
  induction fuel with
  | zero =>
    intro acc cs
    simp [splitScanF, joinPieces, keepF_append]
  | succ fuel ih =>
    intro acc cs
    cases cs with
    | nil => simp [splitScanF, joinPieces, keepF_nil]
    | cons c rest =>
      simp only [splitScanF]
      cases hm : matchLen c rest with
      | none =>
        rw [ih]
        by_cases hk : keepChar c = true <;>
          simp [List.reverse_cons, keepF_append, keepF_cons, keepF_nil, hk, List.append_assoc]
      | some k =>
        obtain ⟨hc, hconsumed⟩ := matchLen_consumed hm
        simp only [joinPieces]
        rw [keepF_append, ih]
        have hrest : keepF (c :: rest) = keepF (rest.drop k) := by
          rw [keepF_cons, if_neg (by simp [hc])]
          conv_lhs => rw [← List.take_append_drop k rest]
          rw [keepF_append, keepF_eq_nil_of_dropped hconsumed, List.nil_append]
        rw [hrest]
        simp [keepF_nil]

theorem keepF_mergeQuotes (pieces : List (Option (List Char))) :
    ∀ temp, keepF (mergeQuotes pieces temp).flatten = keepF temp ++ keepF (joinPieces pieces) := by
  induction pieces with
  | nil =>
    intro temp
    by_cases h : temp = [] <;>
      simp [mergeQuotes, h, joinPieces, keepF_pyStrip, keepF_nil]
  | cons p rest ih =>
    intro temp
    cases p with
    | none => simp [mergeQuotes, joinPieces, ih]
    | some s =>
      simp only [mergeQuotes, joinPieces]
      by_cases he : (temp ++ s).count '\"' % 2 = 0
      · rw [if_pos he, List.flatten_cons, keepF_append, keepF_pyStrip, ih, keepF_append,
          keepF_append s (joinPieces rest)]
        simp [keepF_nil, List.append_assoc]
      · rw [if_neg he, ih, keepF_append, keepF_append s (joinPieces rest), List.append_assoc]

theorem keepF_stripAndDropEmpty (l : List (List Char)) :
    keepF (stripAndDropEmpty l).flatten = keepF l.flatten := by
  induction l with
  | nil => rfl
  | cons x rest ih =>
    by_cases hx : pyStrip x = []
    · have hkx : keepF x = [] := by rw [← keepF_pyStrip, hx]; rfl
      have hstep : stripAndDropEmpty (x :: rest) = stripAndDropEmpty rest := by
        simp [stripAndDropEmpty, List.filter_cons, hx]
      rw [hstep, ih, List.flatten_cons, keepF_append, hkx, List.nil_append]
    · have hstep : stripAndDropEmpty (x :: rest) = pyStrip x :: stripAndDropEmpty rest := by
        simp [stripAndDropEmpty, List.filter_cons, List.isEmpty_iff, hx]
      rw [hstep, List.flatten_cons, List.flatten_cons, keepF_append, keepF_append,
        keepF_pyStrip, ih]

theorem keepF_dehyphenate (l : List Char) : keepF (dehyphenate l) = keepF l := by
  induction l using dehyphenate.induct with
  | case1 => rfl
  | case2 c => rfl
  | case3 c d => rfl
  | case4 c d e rest h ih =>
    simp only [dehyphenate]
    rw [if_pos h, ih]
    obtain ⟨⟨rfl, rfl⟩, -⟩ : (c = '-' ∧ d = '\n') ∧ isAsciiLower e = true := by simpa using h
    rw [show keepF ('-' :: '\n' :: e :: rest) = keepF (e :: rest) from by
      rw [keepF_cons, if_neg (by decide), keepF_cons, if_neg (by decide)]]
  | case5 c d e rest h ih =>
    simp only [dehyphenate]
    rw [if_neg h, keepF_cons c (dehyphenate (d :: e :: rest)), ih,
      keepF_cons c (d :: e :: rest)]

theorem keepF_softWrapJoin (prev : Option Char) (l : List Char) :
    keepF (softWrapJoin prev l) = keepF l := by
  induction l generalizing prev with
  | nil => rfl
  | cons c rest ih =>
    simp only [softWrapJoin]
    by_cases h : (c = '\n' && prevOkForJoin prev && nextOkForJoin rest) = true
    · obtain ⟨⟨rfl, -⟩, -⟩ : (c = '\n' ∧ prevOkForJoin prev = true) ∧ nextOkForJoin rest = true := by
        simpa using h
      rw [if_pos h, keepF_cons, keepF_cons, if_neg (by decide), if_neg (by decide), ih]
    · rw [if_neg h, keepF_cons, keepF_cons, ih]

theorem keepF_remove_pagination (text : List Char) :
    keepF (remove_pagination_breaks text) = keepF text := by
  rw [remove_pagination_breaks, keepF_softWrapJoin, keepF_dehyphenate]

theorem keepF_splitter (text : List Char) :
    keepF (sophisticated_sentence_splitter text).flatten = keepF text := by
  unfold sophisticated_sentence_splitter
  rw [keepF_stripAndDropEmpty, keepF_mergeQuotes, keepF_splitScanF, keepF_remove_pagination]
  rfl

theorem count_quote_splitter (text : List Char) :
    ((sophisticated_sentence_splitter text).flatten).count '\"' = text.count '\"' := by
  rw [count_eq_count_keepF (by decide), keepF_splitter, ← count_eq_count_keepF (by decide)]

theorem ablE_tail {x : List Char} {l : List (List Char)} (h : allButLastEven (x :: l)) :
    allButLastEven l := by
  intro i hi
  have := h (i + 1) (by simpa using Nat.succ_lt_succ hi)
  simpa using this

theorem ablE_cons {x : List Char} {l : List (List Char)} (he : x.count '\"' % 2 = 0)
    (h : allButLastEven l) : allButLastEven (x :: l) := by
  intro i hi
  cases i with
  | zero => simpa using he
  | succ j => simpa using h j (by simpa using Nat.lt_of_succ_lt_succ hi)

theorem ablE_nil : allButLastEven [] := by
  intro i hi
  simp at hi

theorem ablE_single (x : List Char) : allButLastEven [x] := by
  intro i hi
  simp at hi

theorem ablE_mergeQuotes (pieces : List (Option (List Char))) :
    ∀ temp, allButLastEven (mergeQuotes pieces temp) := by
  induction pieces with
  | nil =>
    intro temp
    simp only [mergeQuotes]
    by_cases h : temp = []
    · rw [if_pos h]; exact ablE_nil
    · rw [if_neg h]; exact ablE_single _
  | cons p rest ih =>
    intro temp
    cases p with
    | none => simpa [mergeQuotes] using ih temp
    | some s =>
      simp only [mergeQuotes]
      by_cases he : (temp ++ s).count '\"' % 2 = 0
      · simp only [if_pos he]
        exact ablE_cons (by rw [count_quote_pyStrip]; exact he) (ih [])
      · simp only [if_neg he]
        exact ih (temp ++ s)

theorem ablE_stripAndDropEmpty {l : List (List Char)} (h : allButLastEven l) :
    allButLastEven (stripAndDropEmpty l) := by
  induction l with
  | nil => exact h
  | cons x rest ih =>
    have hrest := ablE_tail h
    by_cases hx : pyStrip x = []
    · have hstep : stripAndDropEmpty (x :: rest) = stripAndDropEmpty rest := by
        simp [stripAndDropEmpty, List.filter_cons, hx]
      rw [hstep]
      exact ih hrest
    · have hstep : stripAndDropEmpty (x :: rest) = pyStrip x :: stripAndDropEmpty rest := by
        simp [stripAndDropEmpty, List.filter_cons, List.isEmpty_iff, hx]
      rw [hstep]
      intro i hi
      cases i with
      | zero =>
        have hne : stripAndDropEmpty rest ≠ [] := by
          intro h0
          rw [h0] at hi
          simp at hi
        have hrne : rest ≠ [] := by
          intro h0
          exact hne (by rw [h0]; rfl)
        have hx0 : x.count '\"' % 2 = 0 := by
          have := h 0 (by
            cases rest with
            | nil => exact absurd rfl hrne
            | cons y ys => simp)
          simpa using this
        rw [List.getD_cons_zero]
        rw [count_quote_pyStrip]
        exact hx0
      | succ j =>
        rw [List.getD_cons_succ]
        exact ih hrest j (by simpa using Nat.lt_of_succ_lt_succ hi)

theorem ablE_splitter (text : List Char) :
    allButLastEven (sophisticated_sentence_splitter text) := by
  unfold sophisticated_sentence_splitter
  exact ablE_stripAndDropEmpty (ablE_mergeQuotes _ [])

theorem mem_stripAndDropEmpty {l : List (List Char)} {s : List Char}
    (hs : s ∈ stripAndDropEmpty l) : s ≠ [] ∧ pyStrip s = s := by
  simp only [stripAndDropEmpty, List.mem_map, List.mem_filter] at hs
  obtain ⟨x, ⟨-, hx⟩, rfl⟩ := hs
  have hne : pyStrip x ≠ [] := by simpa [List.isEmpty_iff] using hx
  exact ⟨hne, pyStrip_idem x⟩

theorem mem_splitter_nonempty_trimmed {text s : List Char}
    (hs : s ∈ sophisticated_sentence_splitter text) : s ≠ [] ∧ pyStrip s = s :=
  mem_stripAndDropEmpty (by simpa [sophisticated_sentence_splitter] using hs)

theorem getLastD_irrel {l : List (List Char)} (h : l ≠ []) (d d' : List Char) :
    l.getLastD d = l.getLastD d' := by
  cases l with
  | nil => exact absurd rfl h
  | cons x xs =>
    rw [List.getLastD_eq_getLast?, List.getLastD_eq_getLast?]
    simp [List.getLast?_cons]

theorem lastOdd_of_sum_odd :
    ∀ l : List (List Char), allButLastEven l →
      ((l.map (List.count '\"')).sum) % 2 = 1 →
      l ≠ [] ∧ (l.getLastD []).count '\"' % 2 = 1 := by
  intro l
  induction l with
  | nil =>
    intro _ hsum
    simp at hsum
  | cons x rest ih =>
    intro hABL hsum
    cases rest with
    | nil =>
      refine ⟨by simp, ?_⟩
      simpa using hsum
    | cons y ys =>
      have hx : x.count '\"' % 2 = 0 := by simpa using hABL 0 (by simp)
      have hsum' : (((y :: ys).map (List.count '\"')).sum) % 2 = 1 := by
        simp only [List.map_cons, List.sum_cons] at hsum ⊢
        omega
      obtain ⟨hne, hlast⟩ := ih (ablE_tail hABL) hsum'
      refine ⟨by simp, ?_⟩
      rw [List.getLastD_cons, getLastD_irrel (by simp) x []]
      exact hlast

theorem getLastD_mem {l : List (List Char)} (h : l ≠ []) : l.getLastD [] ∈ l := by
  induction l with
  | nil => exact absurd rfl h
  | cons x xs ih =>
    cases xs with
    | nil => simp
    | cons y ys =>
      rw [List.getLastD_cons, getLastD_irrel (by simp) x []]
      exact List.mem_cons_of_mem x (ih (by simp))

/-- C2 — counterexample.  The claim states that concatenating the sentences
reconstructs the input up to whitespace normalization, with no non-whitespace
character lost.  On `"Hi. Bye."` the splitter returns `["Hi", "Bye"]`:
`re.split` deletes the matched separator periods, so the concatenation
(whitespace removed) is `"HiBye"` while the input (whitespace removed) is
`"Hi.Bye."`. -/
theorem c2_counterexample :
    sophisticated_sentence_splitter "Hi. Bye.".toList = ["Hi".toList, "Bye".toList] ∧
    removeWs (sophisticated_sentence_splitter "Hi. Bye.".toList).flatten ≠
      removeWs "Hi. Bye.".toList := by
  constructor
  · decide
  · decide

/-- C2 (amended): concatenating in order the sentences returned by the
heuristic splitter reconstructs the original text up to whitespace AND up to
the separator punctuation `.` `!` `?` consumed by the split pattern and the
hyphens deleted by the pagination cleanup: filtering those characters out,
the concatenation equals the input exactly (every other character is
preserved, in order). -/
theorem c2_concat_reconstructs_up_to_separators (text : List Char) :
    keepF (sophisticated_sentence_splitter text).flatten = keepF text :=
  keepF_splitter text

/-- C5: every sentence emitted by the heuristic splitter is non-empty and
equal to its own trim, every sentence except possibly the trailing fragment
has an even number of `"` characters (so no boundary is placed inside an
odd-quote span), and on the spec's example the quoted periods produce no
break inside the quotes. -/
theorem c5_sentences_nonempty_trimmed_no_quote_split (text : List Char) :
    (∀ s ∈ sophisticated_sentence_splitter text, s ≠ [] ∧ pyStrip s = s) ∧
    (∀ i, i + 1 < (sophisticated_sentence_splitter text).length →
      ((sophisticated_sentence_splitter text).getD i []).count '\"' % 2 = 0) ∧
    sophisticated_sentence_splitter "He said \"Stop. Now.\" and left.".toList =
      ["He said \"Stop Now\" and left".toList] :=
  ⟨fun _ hs => mem_splitter_nonempty_trimmed hs, ablE_splitter text, by decide⟩

/-- C5 — witness: the theorem applied to the concrete text `"A. B."`,
whose sentence list is `["A", "B"]`. -/
theorem c5_witness :
    "A".toList ∈ sophisticated_sentence_splitter "A. B.".toList ∧
    ("A".toList ≠ [] ∧ pyStrip "A".toList = "A".toList) ∧
    0 + 1 < (sophisticated_sentence_splitter "A. B.".toList).length ∧
    ((sophisticated_sentence_splitter "A. B.".toList).getD 0 []).count '\"' % 2 = 0 :=
  ⟨by decide,
   (c5_sentences_nonempty_trimmed_no_quote_split "A. B.".toList).1 _ (by decide),
   by decide,
   (c5_sentences_nonempty_trimmed_no_quote_split "A. B.".toList).2.1 0 (by decide)⟩

/-- C10: when the input holds an odd number of `"` characters, the splitter
still emits the leftover fragment of the quote-balancing re-merge loop: the
output is non-empty, its final sentence carries the odd quote count (so the
trailing text inside the unbalanced quotation is not dropped), and that
final sentence is trimmed. -/
theorem c10_odd_quotes_trailing_fragment_kept (text : List Char)
    (hodd : text.count '\"' % 2 = 1) :
    sophisticated_sentence_splitter text ≠ [] ∧
    ((sophisticated_sentence_splitter text).getLastD []).count '\"' % 2 = 1 ∧
    pyStrip ((sophisticated_sentence_splitter text).getLastD []) =
      (sophisticated_sentence_splitter text).getLastD [] := by
  have hsum :
      (((sophisticated_sentence_splitter text).map (List.count '\"')).sum) % 2 = 1 := by
    rw [← List.count_flatten, count_quote_splitter]
    exact hodd
  obtain ⟨hne, hlast⟩ := lastOdd_of_sum_odd _ (ablE_splitter text) hsum
  exact ⟨hne, hlast,
    (mem_splitter_nonempty_trimmed (getLastD_mem hne)).2⟩

/-- C10 — witness: the theorem applied to `"Then \"unbalanced"`, which has
one (unbalanced) quote. -/
theorem c10_witness :
    "Then \"unbalanced".toList.count '\"' % 2 = 1 ∧
    sophisticated_sentence_splitter "Then \"unbalanced".toList ≠ [] ∧
    ((sophisticated_sentence_splitter "Then \"unbalanced".toList).getLastD []).count '\"' % 2 = 1 :=
  ⟨by decide,
   (c10_odd_quotes_trailing_fragment_kept "Then \"unbalanced".toList (by decide)).1,
   (c10_odd_quotes_trailing_fragment_kept "Then \"unbalanced".toList (by decide)).2.1⟩

theorem char_eq_of_toNat_eq {c d : Char} (h : c.toNat = d.toNat) : c = d := by
  have h2 := congrArg Char.ofNat h
  rwa [Char.ofNat_toNat, Char.ofNat_toNat] at h2

theorem upper_char_cases {c : Char} (h : isAsciiUpper c = true) :
    c ∈ ['A', 'B', 'C', 'D', 'E', 'F', 'G', 'H', 'I', 'J', 'K', 'L', 'M',
         'N', 'O', 'P', 'Q', 'R', 'S', 'T', 'U', 'V', 'W', 'X', 'Y', 'Z'] := by
  have hc : 'A' ≤ c ∧ c ≤ 'Z' := by simpa [isAsciiUpper] using h
  have n1 : (65 : Nat) ≤ c.toNat := hc.1
  have n2 : c.toNat ≤ 90 := hc.2
  interval_cases h2 : c.toNat <;>
    · rw [← Char.ofNat_toNat c, h2]
      decide

theorem pyToLower_eq_self {c : Char} (h : isAsciiUpper c = false) : pyToLower c = c := by
  unfold pyToLower
  split
  all_goals first
    | rfl
    | exact absurd h (by decide)

theorem isAsciiUpper_pyToLower (c : Char) : isAsciiUpper (pyToLower c) = false := by
  by_cases h : isAsciiUpper c = true
  · have hmem := upper_char_cases h
    fin_cases hmem <;> decide
  · rw [pyToLower_eq_self (by simpa using h)]
    simpa using h

theorem pyToLower_idem (c : Char) : pyToLower (pyToLower c) = pyToLower c :=
  pyToLower_eq_self (isAsciiUpper_pyToLower c)

theorem pyToLower_wordChar {c : Char} (h : isPyWordChar c = true) :
    isPyWordChar (pyToLower c) = true := by
  by_cases hu : isAsciiUpper c = true
  · have hmem := upper_char_cases hu
    fin_cases hmem <;> decide
  · rw [pyToLower_eq_self (by simpa using hu)]
    exact h

theorem pyToLower_not_space_hyphen {c : Char} (h : isSpaceOrHyphen c = false) :
    isSpaceOrHyphen (pyToLower c) = false := by
  by_cases hu : isAsciiUpper c = true
  · have hmem := upper_char_cases hu
    fin_cases hmem <;> decide
  · rw [pyToLower_eq_self (by simpa using hu)]
    exact h

theorem wordChar_facts {d : Char} (h : isPyWordChar d = true) :
    isPySpace d = false ∧ d ≠ '/' ∧ d ≠ '\\' := by
  refine ⟨?_, ?_, ?_⟩
  · by_cases hs : isPySpace d = true
    · have h6 : d = ' ' ∨ d = '\t' ∨ d = '\n' ∨ d = '\r' ∨ d = '\x0b' ∨ d = '\x0c' := by
        simpa [isPySpace, or_assoc] using hs
      rcases h6 with rfl | rfl | rfl | rfl | rfl | rfl <;> exact absurd h (by decide)
    · simpa using hs
  · rintro rfl
    exact absurd h (by decide)
  · rintro rfl
    exact absurd h (by decide)

theorem collapseRunsF_chars :
    ∀ (fuel : Nat) (l : List Char), l.length ≤ fuel →
      ∀ c ∈ collapseRunsF fuel l, c = '_' ∨ (c ∈ l ∧ isSpaceOrHyphen c = false) := by
  intro fuel
  induction fuel with
  | zero =>
    intro l hl
    have hnil : l = [] := List.length_eq_zero.mp (Nat.le_zero.mp hl)
    subst hnil
    intro c hc
    simp [collapseRunsF] at hc
  | succ fuel ih =>
    intro l hl c hc
    cases l with
    | nil => simp [collapseRunsF] at hc
    | cons x rest =>
      simp only [collapseRunsF] at hc
      by_cases hx : isSpaceOrHyphen x = true
      · rw [if_pos hx] at hc
        rcases List.mem_cons.mp hc with rfl | hc2
        · exact Or.inl rfl
        · have hlen : (rest.dropWhile isSpaceOrHyphen).length ≤ fuel :=
            le_trans (List.dropWhile_sublist isSpaceOrHyphen).length_le
              (Nat.le_of_succ_le_succ hl)
          rcases ih _ hlen c hc2 with h1 | ⟨hmem, hflag⟩
          · exact Or.inl h1
          · exact Or.inr
              ⟨List.mem_cons_of_mem x ((List.dropWhile_sublist isSpaceOrHyphen).subset hmem),
               hflag⟩
      · rw [if_neg hx] at hc
        rcases List.mem_cons.mp hc with rfl | hc2
        · exact Or.inr ⟨List.mem_cons_self _ _, by simpa using hx⟩
        · rcases ih rest (Nat.le_of_succ_le_succ hl) c hc2 with h1 | ⟨hm, hf⟩
          · exact Or.inl h1
          · exact Or.inr ⟨List.mem_cons_of_mem x hm, hf⟩

theorem collapseRunsF_eq_self :
    ∀ (fuel : Nat) (l : List Char),
      (∀ c ∈ l, isSpaceOrHyphen c = false) → collapseRunsF fuel l = l := by
  intro fuel
  induction fuel with
  | zero => intro l _; rfl
  | succ fuel ih =>
    intro l h
    cases l with
    | nil => rfl
    | cons x rest =>
      simp only [collapseRunsF]
      rw [if_neg (by simp [h x (List.mem_cons_self x rest)])]
      rw [ih rest (fun c hc => h c (List.mem_cons_of_mem x hc))]

theorem trimEnd_subset (l : List Char) : ∀ c ∈ trimEnd l, c ∈ l := by
  induction l with
  | nil => intro c hc; simp [trimEnd] at hc
  | cons x rest ih =>
    intro c hc
    simp only [trimEnd] at hc
    by_cases ht : trimEnd rest = []
    · rw [if_pos ht] at hc
      by_cases hsp : isPySpace x = true
      · rw [if_pos hsp] at hc; exact absurd hc (by simp)
      · rw [if_neg hsp] at hc
        obtain rfl : c = x := by simpa using hc
        exact List.mem_cons_self _ _
    · rw [if_neg ht] at hc
      rcases List.mem_cons.mp hc with rfl | hc2
      · exact List.mem_cons_self c rest
      · exact List.mem_cons_of_mem x (ih c hc2)

theorem pyStrip_subset (l : List Char) : ∀ c ∈ pyStrip l, c ∈ l := by
  intro c hc
  exact (List.dropWhile_sublist isPySpace).subset (trimEnd_subset _ c hc)

theorem dropWhile_eq_self_of {p : Char → Bool} {l : List Char}
    (h : ∀ c ∈ l, p c = false) : l.dropWhile p = l := by
  cases l with
  | nil => rfl
  | cons x rest =>
    rw [List.dropWhile_cons, h x (List.mem_cons_self x rest)]
    simp

theorem trimEnd_eq_self_of {l : List Char} (h : ∀ c ∈ l, isPySpace c = false) :
    trimEnd l = l := by
  induction l with
  | nil => rfl
  | cons x rest ih =>
    simp only [trimEnd]
    rw [ih (fun c hc => h c (List.mem_cons_of_mem x hc))]
    cases rest with
    | nil => simp [h x (List.mem_cons_self x [])]
    | cons y ys => simp

theorem pyStrip_eq_self_of {l : List Char} (h : ∀ c ∈ l, isPySpace c = false) :
    pyStrip l = l := by
  rw [pyStrip, dropWhile_eq_self_of h, trimEnd_eq_self_of h]

theorem clean_filename_chars (title : List Char) :
    ∀ c ∈ clean_filename title, isPyWordChar c = true ∧ isSpaceOrHyphen c = false := by
  intro c hc
  unfold clean_filename at hc
  obtain ⟨d, hd, rfl⟩ := List.mem_map.mp hc
  have hd2 : d ∈ collapseRuns (stripNonWord title) := pyStrip_subset _ _ hd
  have hchar := collapseRunsF_chars _ _ (le_refl _) d hd2
  rcases hchar with rfl | ⟨hmem, hflag⟩
  · exact ⟨by decide, by decide⟩
  · have hcond := (List.mem_filter.mp hmem).2
    have hword : isPyWordChar d = true := by
      have hne : d ≠ '-' ∧ isPySpace d = false := by simpa [isSpaceOrHyphen] using hflag
      simpa [hne.1, hne.2] using hcond
    exact ⟨pyToLower_wordChar hword, pyToLower_not_space_hyphen hflag⟩

theorem clean_filename_idem (title : List Char) :
    clean_filename (clean_filename title) = clean_filename title := by
  have hchars := clean_filename_chars title
  have h1 : stripNonWord (clean_filename title) = clean_filename title :=
    List.filter_eq_self.mpr (fun c hc => by simp [(hchars c hc).1])
  have h2 : collapseRuns (clean_filename title) = clean_filename title :=
    collapseRunsF_eq_self _ _ (fun c hc => (hchars c hc).2)
  have h3 : pyStrip (clean_filename title) = clean_filename title :=
    pyStrip_eq_self_of (fun c hc => (wordChar_facts (hchars c hc).1).1)
  have h4 : (clean_filename title).map pyToLower = clean_filename title := by
    rw [clean_filename, List.map_map]
    exact List.map_congr_left (fun a _ => pyToLower_idem a)
  calc clean_filename (clean_filename title)
      = (pyStrip (collapseRuns (stripNonWord (clean_filename title)))).map pyToLower := rfl
    _ = (clean_filename title).map pyToLower := by rw [h1, h2, h3]
    _ = clean_filename title := h4

/-- C8: the filename sanitizer (a pure function) produces only word
characters — never whitespace and never a path separator — and is idempotent
on its image: applying it to an already-sanitized string returns that string
unchanged. -/
theorem c8_clean_filename_sanitizer (title : List Char) :
    (∀ c ∈ clean_filename title,
      isPyWordChar c = true ∧ isPySpace c = false ∧ c ≠ '/' ∧ c ≠ '\\') ∧
    clean_filename (clean_filename title) = clean_filename title := by
  refine ⟨fun c hc => ?_, clean_filename_idem title⟩
  obtain ⟨hw, -⟩ := clean_filename_chars title c hc
  obtain ⟨hs, h1, h2⟩ := wordChar_facts hw
  exact ⟨hw, hs, h1, h2⟩

/-- C8 — witness: the theorem applied to the title `"My Video!"`, whose
sanitized form is `"my_video"`. -/
theorem c8_witness :
    clean_filename "My Video!".toList = "my_video".toList ∧
    'm' ∈ clean_filename "My Video!".toList ∧
    (isPyWordChar 'm' = true ∧ isPySpace 'm' = false ∧ 'm' ≠ '/' ∧ 'm' ≠ '\\') ∧
    clean_filename (clean_filename "My Video!".toList) = clean_filename "My Video!".toList :=
  ⟨by decide, by decide,
   (c8_clean_filename_sanitizer "My Video!".toList).1 'm' (by decide),
   (c8_clean_filename_sanitizer "My Video!".toList).2⟩

theorem dehyphenate_eq_self (l : List Char) : '\n' ∉ l → dehyphenate l = l := by
  induction l using dehyphenate.induct with
  | case1 => intro _; rfl
  | case2 c => intro _; rfl
  | case3 c d => intro _; rfl
  | case4 c d e rest hm ih =>
    intro h
    obtain ⟨⟨-, rfl⟩, -⟩ : (c = '-' ∧ d = '\n') ∧ isAsciiLower e = true := by simpa using hm
    exact absurd (by simp) h
  | case5 c d e rest hm ih =>
    intro h
    simp only [dehyphenate]
    rw [if_neg hm, ih (fun hmem => h (List.mem_cons_of_mem c hmem))]

theorem dehyphenate_cons_of (c : Char) (L : List Char)
    (hsafe : c = '-' → L.head? ≠ some '\n') :
    dehyphenate (c :: L) = c :: dehyphenate L := by
  cases L with
  | nil => rfl
  | cons d L2 =>
    cases L2 with
    | nil => rfl
    | cons e rest =>
      have hno : ¬(c = '-' && d = '\n' && isAsciiLower e) = true := by
        intro hmatch
        obtain ⟨⟨rfl, rfl⟩, -⟩ : (c = '-' ∧ d = '\n') ∧ isAsciiLower e = true := by
          simpa using hmatch
        exact hsafe rfl (by simp)
      simp only [dehyphenate]
      rw [if_neg hno]

theorem dehyphenate_append (a0 : List Char) :
    ∀ L, '\n' ∉ a0 → (a0.getLast? = some '-' → L.head? ≠ some '\n') →
      dehyphenate (a0 ++ L) = a0 ++ dehyphenate L := by
  induction a0 with
  | nil => intro L _ _; rfl
  | cons x a0' ih =>
    intro L hA hB
    have hx : '\n' ∉ a0' := fun h => hA (List.mem_cons_of_mem x h)
    rw [List.cons_append, dehyphenate_cons_of x (a0' ++ L) ?hsafe, ih L hx ?hbound]
    · rfl
    case hsafe =>
      intro hxh
      cases a0' with
      | nil =>
        simpa using hB (by simp [hxh])
      | cons y a0'' =>
        have hy : y ≠ '\n' := fun e => hx (by simp [e])
        simp [hy]
    case hbound =>
      intro hlast
      cases a0' with
      | nil => simp at hlast
      | cons y a0'' =>
        exact hB (by rwa [List.getLast?_cons_cons])

theorem softWrapJoin_eq_self (l : List Char) :
    ∀ prev, '\n' ∉ l → softWrapJoin prev l = l := by
  induction l with
  | nil => intro _ _; rfl
  | cons c rest ih =>
    intro prev h
    have hc : ¬(c = '\n') := fun e => h (by simp [e])
    simp only [softWrapJoin]
    rw [if_neg (by simp [hc]), ih (some c) (fun hm => h (List.mem_cons_of_mem c hm))]

theorem softWrapJoin_append (l : List Char) :
    ∀ prev r, '\n' ∉ l →
      softWrapJoin prev (l ++ r) = l ++ softWrapJoin (l.foldl (fun _ c => some c) prev) r := by
  induction l with
  | nil => intro _ _ _; rfl
  | cons c rest ih =>
    intro prev r h
    have hc : ¬(c = '\n') := fun e => h (by simp [e])
    rw [List.cons_append]
    simp only [softWrapJoin]
    rw [if_neg (by simp [hc]), ih (some c) r (fun hm => h (List.mem_cons_of_mem c hm))]
    rfl

theorem prevOkForJoin_of_word {w : Char} (hw : isPyWordChar w = true)
    (hd : w.isDigit = false) : prevOkForJoin (some w) = true := by
  have h1 : w ≠ '.' := fun e => by subst e; exact absurd hw (by decide)
  have h2 : w ≠ '?' := fun e => by subst e; exact absurd hw (by decide)
  have h3 : w ≠ '!' := fun e => by subst e; exact absurd hw (by decide)
  have h4 : w ≠ '-' := fun e => by subst e; exact absurd hw (by decide)
  simp [prevOkForJoin, hw, h1, h2, h3, h4, hd]

/-- C9: the pagination cleanup (i) turns `"inter-\nesting"` into the single
word `"interesting"`; (ii) deletes a hyphen followed by a line break and a
lowercase letter, in an arbitrary single-break context; (iii) replaces with a
single space a line break preceded by a non-digit word character and not
followed by an uppercase letter or another line break (the `nextOkForJoin`
lookahead), in an arbitrary single-break context. -/
theorem c9_remove_pagination_rules :
    remove_pagination_breaks "inter-\nesting".toList = "interesting".toList ∧
    (∀ (a b : List Char) (c : Char), '\n' ∉ a → '\n' ∉ b → isAsciiLower c = true →
      remove_pagination_breaks (a ++ '-' :: '\n' :: c :: b) = a ++ c :: b) ∧
    (∀ (a b : List Char) (w : Char), '\n' ∉ a → '\n' ∉ b → isPyWordChar w = true →
      w.isDigit = false → nextOkForJoin b = true →
      remove_pagination_breaks (a ++ w :: '\n' :: b) = a ++ w :: ' ' :: b) := by
  refine ⟨by decide, ?_, ?_⟩
  · intro a b c hA hB hc
    have hc_nl : c ≠ '\n' := fun e => by subst e; exact absurd hc (by decide)
    unfold remove_pagination_breaks
    have h1 : dehyphenate (a ++ '-' :: '\n' :: c :: b) = a ++ c :: b := by
      rw [dehyphenate_append a ('-' :: '\n' :: c :: b) hA (fun _ => by simp)]
      have h2 : dehyphenate ('-' :: '\n' :: c :: b) = c :: b := by
        simp only [dehyphenate]
        rw [if_pos (by simp [hc])]
        exact dehyphenate_eq_self (c :: b) (by
          intro hm
          rcases List.mem_cons.mp hm with he | hm2
          · exact hc_nl he.symm
          · exact hB hm2)
      rw [h2]
    rw [h1]
    refine softWrapJoin_eq_self _ none ?_
    intro hm
    rcases List.mem_append.mp hm with hm1 | hm2
    · exact hA hm1
    · rcases List.mem_cons.mp hm2 with he | hm3
      · exact hc_nl he.symm
      · exact hB hm3
  · intro a b w hA hB hw hd hb
    have hw_nl : w ≠ '\n' := fun e => by subst e; exact absurd hw (by decide)
    have hw_h : w ≠ '-' := fun e => by subst e; exact absurd hw (by decide)
    have haw : '\n' ∉ a ++ [w] := by
      intro hm
      rcases List.mem_append.mp hm with hm1 | hm2
      · exact hA hm1
      · have he : '\n' = w := by simpa using hm2
        exact hw_nl he.symm
    unfold remove_pagination_breaks
    have hassoc : a ++ w :: '\n' :: b = (a ++ [w]) ++ '\n' :: b := by simp
    rw [hassoc]
    have hbound : (a ++ [w]).getLast? = some '-' → ('\n' :: b).head? ≠ some '\n' := by
      intro hlast
      rw [List.getLast?_concat] at hlast
      exact absurd (by simpa using hlast) hw_h
    have h1 : dehyphenate ((a ++ [w]) ++ '\n' :: b) = (a ++ [w]) ++ '\n' :: b := by
      rw [dehyphenate_append (a ++ [w]) ('\n' :: b) haw hbound]
      rw [dehyphenate_cons_of '\n' b (fun e => absurd e (by decide))]
      rw [dehyphenate_eq_self b hB]
    rw [h1, softWrapJoin_append (a ++ [w]) none ('\n' :: b) haw]
    have hfold : (a ++ [w]).foldl (fun _ c => some c) none = some w := by
      rw [List.foldl_append]
      rfl
    rw [hfold]
    have h2 : softWrapJoin (some w) ('\n' :: b) = ' ' :: b := by
      simp only [softWrapJoin]
      rw [if_pos (by simp [prevOkForJoin_of_word hw hd, hb])]
      rw [softWrapJoin_eq_self b (some '\n') hB]
    rw [h2]
    simp

/-- C9 — witness: rule (ii) applied at `a = "so", b = "me", c = 'o'` and
rule (iii) applied at `a = "word", w = 'y', b = "next"`. -/
theorem c9_witness :
    remove_pagination_breaks ("so".toList ++ '-' :: '\n' :: 'o' :: "me".toList) =
      "so".toList ++ 'o' :: "me".toList ∧
    remove_pagination_breaks ("word".toList ++ 'y' :: '\n' :: "next".toList) =
      "word".toList ++ 'y' :: ' ' :: "next".toList :=
  ⟨(c9_remove_pagination_rules.2.1 "so".toList "me".toList 'o'
      (by decide) (by decide) (by decide)),
   (c9_remove_pagination_rules.2.2 "word".toList "next".toList 'y'
      (by decide) (by decide) (by decide) (by decide) (by decide))⟩

theorem foldl_combined_text (segments : List WhisperSegment) :
    ∀ acc, segments.foldl (fun acc s => acc ++ s.text ++ ['\n']) acc =
      acc ++ (segments.map (fun s => s.text ++ ['\n'])).flatten := by
  induction segments with
  | nil => intro acc; simp
  | cons s rest ih =>
    intro acc
    rw [List.foldl_cons, ih]
    simp [List.append_assoc]

theorem foldl_metadata (segments : List WhisperSegment) :
    ∀ acc, segments.foldl (fun acc s => acc ++ [metadataOfSegment s]) acc =
      acc ++ segments.map metadataOfSegment := by
  induction segments with
  | nil => intro acc; simp
  | cons s rest ih =>
    intro acc
    rw [List.foldl_cons, ih]
    simp

theorem getD_map_metadata (l : List WhisperSegment) :
    ∀ i, i < l.length →
      (l.map metadataOfSegment).getD i ⟨0, 0, [], 0⟩ =
        metadataOfSegment (l.getD i ⟨0, 0, [], 0⟩) := by
  induction l with
  | nil => intro i hi; simp at hi
  | cons s rest ih =>
    intro i hi
    cases i with
    | zero => simp
    | succ j =>
      simp only [List.map_cons, List.getD_cons_succ]
      exact ih j (by simpa using Nat.lt_of_succ_lt_succ hi)

/-- C6: for every segment sequence, the assembled combined text is the
segments' texts in input order each followed by exactly one newline; the
metadata list is the per-segment records in input order (hence of the same
length), each record holding the segment's text with start, end and
avg_logprob rounded to two decimals; and the empty segment sequence yields
empty combined text and an empty metadata sequence. -/
theorem c6_assembler_combined_and_metadata (segments : List WhisperSegment)
    (name : List Char) :
    (compute_transcript_with_whisper segments name).combined_transcript_text =
      (segments.map (fun s => s.text ++ ['\n'])).flatten ∧
    (compute_transcript_with_whisper segments name).metadata_dicts =
      segments.map metadataOfSegment ∧
    (compute_transcript_with_whisper segments name).metadata_dicts.length =
      segments.length ∧
    (∀ i, i < segments.length →
      (compute_transcript_with_whisper segments name).metadata_dicts.getD i ⟨0, 0, [], 0⟩ =
        { start := pyRound2 ((segments.getD i ⟨0, 0, [], 0⟩).start),
          end_ := pyRound2 ((segments.getD i ⟨0, 0, [], 0⟩).end_),
          text := (segments.getD i ⟨0, 0, [], 0⟩).text,
          avg_logprob := pyRound2 ((segments.getD i ⟨0, 0, [], 0⟩).avg_logprob) }) ∧
    compute_transcript_with_whisper [] name = ⟨[], [], [], []⟩ := by
  by_cases h : segments = []
  · subst h
    refine ⟨rfl, rfl, rfl, ?_, rfl⟩
    intro i hi
    simp at hi
  · have h1 : (compute_transcript_with_whisper segments name).combined_transcript_text =
        (segments.map (fun s => s.text ++ ['\n'])).flatten := by
      simp only [compute_transcript_with_whisper, if_neg h]
      rw [foldl_combined_text]
      rfl
    have h2 : (compute_transcript_with_whisper segments name).metadata_dicts =
        segments.map metadataOfSegment := by
      simp only [compute_transcript_with_whisper, if_neg h]
      rw [foldl_metadata]
      rfl
    refine ⟨h1, h2, ?_, ?_, rfl⟩
    · rw [h2, List.length_map]
    · intro i hi
      rw [h2, getD_map_metadata segments i hi]
      rfl

/-- C6 — witness: the theorem applied to one concrete segment. -/
theorem c6_witness :
    0 < ([⟨0, 1/2, "hi".toList, -1/4⟩] : List WhisperSegment).length ∧
    (compute_transcript_with_whisper [⟨0, 1/2, "hi".toList, -1/4⟩] "name".toList).metadata_dicts.getD
        0 ⟨0, 0, [], 0⟩ =
      { start := pyRound2 ((([⟨0, 1/2, "hi".toList, -1/4⟩] : List WhisperSegment).getD
            0 ⟨0, 0, [], 0⟩).start),
        end_ := pyRound2 ((([⟨0, 1/2, "hi".toList, -1/4⟩] : List WhisperSegment).getD
            0 ⟨0, 0, [], 0⟩).end_),
        text := (([⟨0, 1/2, "hi".toList, -1/4⟩] : List WhisperSegment).getD
            0 ⟨0, 0, [], 0⟩).text,
        avg_logprob := pyRound2 ((([⟨0, 1/2, "hi".toList, -1/4⟩] : List WhisperSegment).getD
            0 ⟨0, 0, [], 0⟩).avg_logprob) } :=
  ⟨by simp,
   (c6_assembler_combined_and_metadata [⟨0, 1/2, "hi".toList, -1/4⟩] "name".toList).2.2.2.1
     0 (by simp)⟩

/-- C3 — counterexample: with zero segments the function returns before the
`with open(...)` write, so no transcript artifact at all is produced for the
audio file's base name, contradicting "an empty transcript artifact is still
produced". -/
theorem c3_counterexample :
    (compute_transcript_with_whisper [] "video".toList).writes = [] ∧
    (transcriptPath "video".toList, ([] : List Char)) ∉
      (compute_transcript_with_whisper [] "video".toList).writes := by
  refine ⟨?_, ?_⟩
  · simp [compute_transcript_with_whisper]
  · simp [compute_transcript_with_whisper]

/-- C3 (amended): zero segments are treated as success, not failure — the
call returns normally with every slot empty — but no transcript artifact is
written in that case; the transcript artifact for the audio file's base name
is written exactly when at least one segment exists. -/
theorem c3_empty_segments_return_no_artifact (name : List Char) :
    compute_transcript_with_whisper [] name = ⟨[], [], [], []⟩ ∧
    (∀ segments : List WhisperSegment, segments ≠ [] →
      (compute_transcript_with_whisper segments name).writes =
        [(transcriptPath name,
          (compute_transcript_with_whisper segments name).combined_transcript_text)]) := by
  refine ⟨by simp [compute_transcript_with_whisper], ?_⟩
  intro segments h
  simp only [compute_transcript_with_whisper, if_neg h]

/-- C3 — witness: the amended theorem applied to a singleton segment list. -/
theorem c3_witness :
    ([⟨0, 0, [], 0⟩] : List WhisperSegment) ≠ [] ∧
    (compute_transcript_with_whisper [⟨0, 0, [], 0⟩] "v".toList).writes =
      [(transcriptPath "v".toList,
        (compute_transcript_with_whisper [⟨0, 0, [], 0⟩] "v".toList).combined_transcript_text)] :=
  ⟨by simp,
   (c3_empty_segments_return_no_artifact "v".toList).2 [⟨0, 0, [], 0⟩] (by simp)⟩

theorem digitVal_digitChar {n : Nat} (h : n < 10) : digitVal (digitChar n) = n := by
  interval_cases n <;> rfl

theorem digitsToNat_foldl (l : List Char) :
    ∀ a : Nat, l.foldl (fun a c => a * 10 + digitVal c) a =
      a * 10 ^ l.length + digitsToNat l := by
  induction l with
  | nil => intro a; simp [digitsToNat]
  | cons c rest ih =>
    intro a
    rw [List.foldl_cons, ih (a * 10 + digitVal c)]
    have h2 : digitsToNat (c :: rest) = digitVal c * 10 ^ rest.length + digitsToNat rest := by
      rw [digitsToNat, List.foldl_cons, ih (0 * 10 + digitVal c)]
      simp
    rw [h2, List.length_cons]
    ring

theorem natToDigitsF_spec :
    ∀ (fuel n : Nat) (acc : List Char), n < 10 ^ fuel →
      digitsToNat (natToDigitsF fuel n acc) = n * 10 ^ acc.length + digitsToNat acc := by
  intro fuel
  induction fuel with
  | zero =>
    intro n acc hn
    have h0 : n = 0 := by simpa using hn
    subst h0
    simp [natToDigitsF]
  | succ fuel ih =>
    intro n acc hn
    by_cases h10 : n < 10
    · simp only [natToDigitsF, if_pos h10]
      rw [digitsToNat, List.foldl_cons, digitsToNat_foldl, digitVal_digitChar h10]
      simp [digitsToNat]
    · simp only [natToDigitsF, if_neg h10]
      have hdiv : n / 10 < 10 ^ fuel := by
        rw [Nat.div_lt_iff_lt_mul (by norm_num)]
        calc n < 10 ^ (fuel + 1) := hn
          _ = 10 ^ fuel * 10 := by rw [Nat.pow_succ]
      rw [ih (n / 10) (digitChar (n % 10) :: acc) hdiv]
      have hmod : digitsToNat (digitChar (n % 10) :: acc) =
          (n % 10) * 10 ^ acc.length + digitsToNat acc := by
        rw [digitsToNat, List.foldl_cons, digitsToNat_foldl,
          digitVal_digitChar (Nat.mod_lt n (by norm_num))]
        simp [digitsToNat]
      rw [hmod, List.length_cons]
      have hq : n / 10 * 10 + n % 10 = n := by
        have h := Nat.div_add_mod n 10
        omega
      calc n / 10 * 10 ^ (acc.length + 1) + ((n % 10) * 10 ^ acc.length + digitsToNat acc)
          = (n / 10 * 10 + n % 10) * 10 ^ acc.length + digitsToNat acc := by
            rw [Nat.pow_succ]
            ring
        _ = n * 10 ^ acc.length + digitsToNat acc := by rw [hq]

theorem lt_ten_pow_succ (n : Nat) : n < 10 ^ (n + 1) := by
  calc n < 2 ^ n := Nat.lt_two_pow n
    _ ≤ 10 ^ n := Nat.pow_le_pow_left (by norm_num) n
    _ < 10 ^ (n + 1) := Nat.pow_lt_pow_right (by norm_num) (Nat.lt_succ_self n)

theorem digitsToNat_natToDigits (n : Nat) : digitsToNat (natToDigits n) = n := by
  rw [natToDigits, natToDigitsF_spec (n + 1) n [] (lt_ten_pow_succ n)]
  simp [digitsToNat]

theorem natToDigits_inj {m n : Nat} (h : natToDigits m = natToDigits n) : m = n := by
  have h2 := congrArg digitsToNat h
  rwa [digitsToNat_natToDigits, digitsToNat_natToDigits] at h2

theorem mkAudioPath_inj {f g : List Char} (h : mkAudioPath f = mkAudioPath g) : f = g := by
  unfold mkAudioPath at h
  exact List.append_cancel_left (List.append_cancel_right h)

theorem candName_inj (base : List Char) :
    Function.Injective (fun i => candName base i) := by
  intro i j h
  simp only at h
  cases i with
  | zero =>
    cases j with
    | zero => rfl
    | succ j2 =>
      have hlen := congrArg List.length h
      simp [candName] at hlen
  | succ i2 =>
    cases j with
    | zero =>
      have hlen := congrArg List.length h
      simp [candName] at hlen
    | succ j2 =>
      simp only [candName] at h
      have h2 := List.append_cancel_left h
      have h3 : natToDigits (i2 + 1) = natToDigits (j2 + 1) := by
        simpa using h2
      have := natToDigits_inj h3
      omega

theorem probeFree_spec (fs : List (List Char)) (base : List Char) (m : Nat) :
    ∀ (fuel c : Nat), c ≤ m → m - c ≤ fuel →
      (∀ i, c ≤ i → i < m → mkAudioPath (candName base i) ∈ fs) →
      mkAudioPath (candName base m) ∉ fs →
      probeFree fs base fuel (c + 1) (candName base c) =
        (candName base m, mkAudioPath (candName base m)) := by
  intro fuel
  induction fuel with
  | zero =>
    intro c hcm hfc _ hfree
    have hc : c = m := by omega
    subst hc
    rfl
  | succ fuel ih =>
    intro c hcm hfc hocc hfree
    by_cases hc : c = m
    · subst hc
      simp only [probeFree]
      rw [if_neg hfree]
    · have hlt : c < m := lt_of_le_of_ne hcm hc
      simp only [probeFree]
      rw [if_pos (hocc c (le_refl c) hlt)]
      have hcand : base ++ '_' :: natToDigits (c + 1) = candName base (c + 1) := rfl
      rw [hcand]
      exact ih (c + 1) hlt (by omega) (fun i h1 h2 => hocc i (by omega) h2) hfree

theorem exists_free_index (fs : List (List Char)) (base : List Char) :
    ∃ m, m ≤ fs.length ∧ mkAudioPath (candName base m) ∉ fs := by
  by_contra hall
  push_neg at hall
  have hsub : ((List.range (fs.length + 1)).map
      (fun i => mkAudioPath (candName base i))) ⊆ fs := by
    intro p hp
    obtain ⟨i, hi, rfl⟩ := List.mem_map.mp hp
    exact hall i (by simpa using Nat.lt_succ_iff.mp (List.mem_range.mp hi))
  have hinj : Function.Injective (fun i => mkAudioPath (candName base i)) :=
    fun i j hij => candName_inj base (mkAudioPath_inj hij)
  have hnodup : ((List.range (fs.length + 1)).map
      (fun i => mkAudioPath (candName base i))).Nodup :=
    (List.nodup_range (fs.length + 1)).map hinj
  have hlen := (hnodup.subperm hsub).length_le
  simp at hlen

theorem least_free_index (fs : List (List Char)) (base : List Char) :
    ∃ m, m ≤ fs.length ∧ mkAudioPath (candName base m) ∉ fs ∧
      ∀ i, i < m → mkAudioPath (candName base i) ∈ fs := by
  obtain ⟨w, hw, hwf⟩ := exists_free_index fs base
  have hex : ∃ m, mkAudioPath (candName base m) ∉ fs := ⟨w, hwf⟩
  refine ⟨Nat.find hex, le_trans (Nat.find_le hwf) hw, Nat.find_spec hex, fun i hi => ?_⟩
  have := Nat.find_min hex hi
  exact not_not.mp this

theorem probeFree_run (fs : List (List Char)) (base : List Char) :
    ∃ m, mkAudioPath (candName base m) ∉ fs ∧
      (∀ i, i < m → mkAudioPath (candName base i) ∈ fs) ∧
      probeFree fs base (fs.length + 1) 1 base =
        (candName base m, mkAudioPath (candName base m)) := by
  obtain ⟨m, hm, hfree, hocc⟩ := least_free_index fs base
  refine ⟨m, hfree, hocc, ?_⟩
  have h0 : candName base 0 = base := rfl
  rw [← h0]
  exact probeFree_spec fs base m (fs.length + 1) 0 (Nat.zero_le m) (by omega)
    (fun i _ h2 => hocc i h2) hfree

theorem download_audio_run (fs : List (List Char)) (video : PyVideo) :
    ∃ m, mkAudioPath (candName (clean_filename video.title) m) ∉ fs ∧
      (∀ i, i < m → mkAudioPath (candName (clean_filename video.title) i) ∈ fs) ∧
      download_audio fs video =
        (match video.stream with
         | none => .error ("No audio stream found for video: ".toList ++ video.title)
         | some st =>
           if st.downloadOk then
             .ok ((some (mkAudioPath (candName (clean_filename video.title) m)),
                   some (candName (clean_filename video.title) m)),
                  mkAudioPath (candName (clean_filename video.title) m) :: fs)
           else .ok ((none, none), fs)) := by
  obtain ⟨m, hfree, hocc, hprobe⟩ := probeFree_run fs (clean_filename video.title)
  refine ⟨m, hfree, hocc, ?_⟩
  simp only [download_audio, hprobe]
  rw [if_neg hfree]

theorem candName_ne_nil {base : List Char} (h : base ≠ []) (m : Nat) :
    candName base m ≠ [] := by
  cases m with
  | zero => exact h
  | succ k => simp [candName]

theorem download_audio_fresh {fs : List (List Char)} {video : PyVideo}
    {p f : List Char} {fs1 : List (List Char)}
    (h : download_audio fs video = .ok ((some p, some f), fs1)) :
    p ∉ fs ∧ fs1 = p :: fs := by
  obtain ⟨m, hfree, hocc, heq⟩ := download_audio_run fs video
  rw [heq] at h
  cases hst : video.stream with
  | none =>
    rw [hst] at h
    cases h
  | some st =>
    rw [hst] at h
    dsimp only at h
    by_cases hok : st.downloadOk = true
    · rw [if_pos hok] at h
      simp only [Except.ok.injEq, Prod.mk.injEq, Option.some.injEq] at h
      obtain ⟨⟨hp, -⟩, hfs⟩ := h
      subst hp
      exact ⟨hfree, hfs.symm⟩
    · rw [if_neg hok] at h
      simp at h

theorem free_index_unique {fs : List (List Char)} {base : List Char} {m k : Nat}
    (hfree : mkAudioPath (candName base m) ∉ fs)
    (hocc : ∀ i, i < m → mkAudioPath (candName base i) ∈ fs)
    (hbelow : ∀ i, i < k → mkAudioPath (candName base i) ∈ fs)
    (habove : ∀ i, k ≤ i → mkAudioPath (candName base i) ∉ fs) : m = k := by
  by_contra hne
  rcases Nat.lt_or_ge m k with h | h
  · exact hfree (hbelow m h)
  · have hk : k < m := lt_of_le_of_ne h (Ne.symm hne)
    exact habove k (le_refl k) (hocc k hk)

theorem repeatedDownload_aux (video : PyVideo) (st : AudioStream)
    (hst : video.stream = some st) (hok : st.downloadOk = true) :
    ∀ (n k : Nat) (fs : List (List Char)),
      (∀ i, i < k → mkAudioPath (candName (clean_filename video.title) i) ∈ fs) →
      (∀ i, k ≤ i → mkAudioPath (candName (clean_filename video.title) i) ∉ fs) →
      (repeatedDownload video n fs).1 =
        (List.range n).map
          (fun j => mkAudioPath (candName (clean_filename video.title) (k + j))) := by
  intro n
  induction n with
  | zero => intro k fs _ _; rfl
  | succ n ih =>
    intro k fs hbelow habove
    obtain ⟨m, hfree, hocc, heq⟩ := download_audio_run fs video
    have hm : m = k := free_index_unique hfree hocc hbelow habove
    subst hm
    rw [hst] at heq
    dsimp only at heq
    rw [if_pos hok] at heq
    simp only [repeatedDownload, heq]
    have hbelow2 : ∀ i, i < m + 1 →
        mkAudioPath (candName (clean_filename video.title) i) ∈
          mkAudioPath (candName (clean_filename video.title) m) :: fs := by
      intro i hi
      rcases Nat.lt_or_ge i m with h2 | h2
      · exact List.mem_cons_of_mem _ (hbelow i h2)
      · have : i = m := by omega
        subst this
        exact List.mem_cons_self _ _
    have habove2 : ∀ i, m + 1 ≤ i →
        mkAudioPath (candName (clean_filename video.title) i) ∉
          mkAudioPath (candName (clean_filename video.title) m) :: fs := by
      intro i hi hmem
      rcases List.mem_cons.mp hmem with h2 | h2
      · have : i = m := candName_inj _ (mkAudioPath_inj h2)
        omega
      · exact habove i (by omega) h2
    have hih := ih (m + 1) _ hbelow2 habove2
    rw [hih, List.range_succ_eq_map, List.map_cons, List.map_map]
    refine congrArg₂ List.cons (by rw [Nat.add_zero]) ?_
    exact (List.map_congr_left (fun j _ => by
      simp only [Function.comp]
      rw [show m + (j + 1) = m + 1 + j from by omega])).symm

/-- C7: (i) whenever the sanitized candidate path for a video's title is
already on disk, a successful `download_audio` still returns a path that is
not on disk; (ii) starting from a disk holding none of the candidate paths,
n repeated acquisitions of the same title produce exactly the candidate
paths `base.mp3, base_1.mp3, …, base_{n-1}.mp3` in order — pairwise
distinct, and none of them on the initial disk. -/
theorem c7_collision_avoidance :
    (∀ (fs : List (List Char)) (video : PyVideo) (p f : List Char)
        (fs1 : List (List Char)),
      mkAudioPath (clean_filename video.title) ∈ fs →
      download_audio fs video = .ok ((some p, some f), fs1) → p ∉ fs) ∧
    (∀ (video : PyVideo) (st : AudioStream) (n : Nat) (fs : List (List Char)),
      video.stream = some st → st.downloadOk = true →
      (∀ i, mkAudioPath (candName (clean_filename video.title) i) ∉ fs) →
      (repeatedDownload video n fs).1 =
        (List.range n).map
          (fun i => mkAudioPath (candName (clean_filename video.title) i)) ∧
      (repeatedDownload video n fs).1.Nodup ∧
      (∀ p ∈ (repeatedDownload video n fs).1, p ∉ fs)) := by
  constructor
  · intro fs video p f fs1 _ h
    exact (download_audio_fresh h).1
  · intro video st n fs hst hok hnone
    have h1 := repeatedDownload_aux video st hst hok n 0 fs
      (fun i hi => absurd hi (Nat.not_lt_zero i)) (fun i _ => hnone i)
    have h1' : (repeatedDownload video n fs).1 =
        (List.range n).map
          (fun i => mkAudioPath (candName (clean_filename video.title) i)) := by
      rw [h1]
      exact List.map_congr_left (fun j _ => by rw [Nat.zero_add])
    refine ⟨h1', ?_, ?_⟩
    · rw [h1']
      exact (List.nodup_range n).map
        (fun i j hij => candName_inj _ (mkAudioPath_inj hij))
    · intro p hp
      rw [h1'] at hp
      obtain ⟨i, -, rfl⟩ := List.mem_map.mp hp
      exact hnone i

/-- C7 — witness: with `downloaded_audio/my_video.mp3` already on disk, the
acquisition for the title `"My Video!"` returns the suffixed fresh path
`downloaded_audio/my_video_1.mp3`; and from an empty disk two repeated
acquisitions produce the unsuffixed and `_1` paths. -/
theorem c7_witness :
    mkAudioPath (clean_filename "My Video!".toList) ∈ [mkAudioPath "my_video".toList] ∧
    download_audio [mkAudioPath "my_video".toList]
        ⟨"My Video!".toList, some ⟨true⟩, .ok []⟩ =
      .ok ((some (mkAudioPath "my_video_1".toList), some "my_video_1".toList),
           [mkAudioPath "my_video_1".toList, mkAudioPath "my_video".toList]) ∧
    mkAudioPath "my_video_1".toList ∉ [mkAudioPath "my_video".toList] ∧
    (repeatedDownload ⟨"My Video!".toList, some ⟨true⟩, .ok []⟩ 2 []).1 =
      (List.range 2).map
        (fun i => mkAudioPath (candName (clean_filename "My Video!".toList) i)) :=
  ⟨by decide, rfl,
   c7_collision_avoidance.1 [mkAudioPath "my_video".toList]
     ⟨"My Video!".toList, some ⟨true⟩, .ok []⟩ (mkAudioPath "my_video_1".toList)
     "my_video_1".toList [mkAudioPath "my_video_1".toList, mkAudioPath "my_video".toList]
     (by decide) rfl,
   (c7_collision_avoidance.2 ⟨"My Video!".toList, some ⟨true⟩, .ok []⟩ ⟨true⟩ 2 []
     rfl rfl (fun i => by simp)).1⟩

theorem download_and_transcribe_outcome (video : PyVideo) (fs : List (List Char))
    (hname : clean_filename video.title ≠ []) :
    (download_and_transcribe video fs).1 = expectedOutcome video := by
  obtain ⟨m, hfree, hocc, heq⟩ := download_audio_run fs video
  unfold download_and_transcribe expectedOutcome
  rw [heq]
  cases hst : video.stream with
  | none => rfl
  | some st =>
    dsimp only
    by_cases hok : st.downloadOk = true
    · rw [if_pos hok, if_pos hok]
      dsimp only
      have hp : mkAudioPath (candName (clean_filename video.title) m) ≠ [] := by
        simp [mkAudioPath]
      have hf : candName (clean_filename video.title) m ≠ [] :=
        candName_ne_nil hname m
      rw [if_pos ⟨hp, hf⟩]
      cases video.engine with
      | error e => rfl
      | ok segs => rfl
    · rw [if_neg hok, if_neg hok]

theorem expectedOutcome_failed_title (video : PyVideo) (msg : List Char)
    (h : expectedOutcome video = .failed msg) :
    ∃ pre suf, msg = pre ++ video.title ++ suf := by
  unfold expectedOutcome at h
  cases hst : video.stream with
  | none =>
    rw [hst] at h
    dsimp only at h
    have hmsg := (VideoOutcome.failed.injEq _ _).mp h.symm
    refine ⟨"Error processing video ".toList, ?_, ?_⟩
    · exact ": ".toList ++ ("No audio stream found for video: ".toList ++ video.title)
    · rw [hmsg]
      simp [List.append_assoc]
  | some st =>
    rw [hst] at h
    dsimp only at h
    by_cases hok : st.downloadOk = true
    · rw [if_pos hok] at h
      cases heng : video.engine with
      | error e =>
        rw [heng] at h
        dsimp only at h
        have hmsg := (VideoOutcome.failed.injEq _ _).mp h.symm
        refine ⟨"Error processing video ".toList, ": ".toList ++ e, ?_⟩
        rw [hmsg]
        simp [List.append_assoc]
      | ok segs =>
        rw [heng] at h
        cases h
    · rw [if_neg hok] at h
      cases h

theorem processAllVideos_spec (videos : List PyVideo) :
    ∀ fs, (∀ v ∈ videos, clean_filename v.title ≠ []) →
      (processAllVideos videos fs).1.length = videos.length ∧
      ∀ i, i < videos.length →
        (processAllVideos videos fs).1.getD i .done =
          expectedOutcome (videos.getD i ⟨[], none, .ok []⟩) := by
  induction videos with
  | nil =>
    intro fs _
    exact ⟨rfl, fun i hi => by simp at hi⟩
  | cons v rest ih =>
    intro fs hall
    have hv := download_and_transcribe_outcome v fs (hall v (List.mem_cons_self v rest))
    have hrest := ih (download_and_transcribe v fs).2.1
      (fun w hw => hall w (List.mem_cons_of_mem v hw))
    constructor
    · simp only [processAllVideos, List.length_cons]
      rw [hrest.1]
    · intro i hi
      cases i with
      | zero =>
        simpa [processAllVideos] using hv
      | succ j =>
        simp only [processAllVideos, List.getD_cons_succ]
        exact hrest.2 j (by simpa using Nat.lt_of_succ_lt_succ hi)

/-- C4: for every run, the orchestrator returns one outcome per video (it
completes only after every video reached Done or Failed); each video's
outcome is exactly the outcome determined by that video's own behavior —
the two exceptions that can escape the per-video body (missing stream,
engine failure) are caught at the per-video boundary and converted to a
Failed outcome whose log line carries that video's title — so one video's
exception never changes a sibling's outcome. -/
theorem c4_fault_isolation (videos : List PyVideo) (fs : List (List Char))
    (hnames : ∀ v ∈ videos, clean_filename v.title ≠ []) :
    (processAllVideos videos fs).1.length = videos.length ∧
    (∀ i, i < videos.length →
      (processAllVideos videos fs).1.getD i .done =
        expectedOutcome (videos.getD i ⟨[], none, .ok []⟩)) ∧
    (∀ i, i < videos.length → ∀ msg,
      (processAllVideos videos fs).1.getD i .done = .failed msg →
      ∃ pre suf, msg = pre ++ (videos.getD i ⟨[], none, .ok []⟩).title ++ suf) := by
  obtain ⟨h1, h2⟩ := processAllVideos_spec videos fs hnames
  refine ⟨h1, h2, ?_⟩
  intro i hi msg hmsg
  rw [h2 i hi] at hmsg
  exact expectedOutcome_failed_title _ msg hmsg

/-- C4 — witness: three videos where the middle one raises (no audio
stream); the run yields one outcome per video, the middle one Failed with
its title in the log, the siblings Done. -/
theorem c4_witness :
    (∀ v ∈ [(⟨"A".toList, some ⟨true⟩, .ok []⟩ : PyVideo),
            ⟨"B".toList, none, .ok []⟩,
            ⟨"C".toList, some ⟨true⟩, .ok []⟩], clean_filename v.title ≠ []) ∧
    (processAllVideos [⟨"A".toList, some ⟨true⟩, .ok []⟩,
        ⟨"B".toList, none, .ok []⟩,
        ⟨"C".toList, some ⟨true⟩, .ok []⟩] []).1.length = 3 ∧
    (processAllVideos [⟨"A".toList, some ⟨true⟩, .ok []⟩,
        ⟨"B".toList, none, .ok []⟩,
        ⟨"C".toList, some ⟨true⟩, .ok []⟩] []).1.getD 1 .done =
      expectedOutcome (([(⟨"A".toList, some ⟨true⟩, .ok []⟩ : PyVideo),
        ⟨"B".toList, none, .ok []⟩,
        ⟨"C".toList, some ⟨true⟩, .ok []⟩].getD 1 ⟨[], none, .ok []⟩)) :=
  ⟨by intro v hv; fin_cases hv <;> decide,
   (c4_fault_isolation _ [] (by intro v hv; fin_cases hv <;> decide)).1,
   (c4_fault_isolation _ [] (by intro v hv; fin_cases hv <;> decide)).2.1 1 (by simp)⟩

theorem videoActions_true_eq :
    videoActions true = [.acquire, .download, .transcribe, .release] := rfl

theorem videoActions_false_eq :
    videoActions false = [.acquire, .download, .release] := rfl

theorem countHolding_append (a b : List GateTask) :
    countHolding (a ++ b) = countHolding a + countHolding b := by
  simp [countHolding, List.filter_append]

theorem countHolding_cons (t : GateTask) (l : List GateTask) :
    countHolding (t :: l) = (if t.holding then 1 else 0) + countHolding l := by
  simp only [countHolding, List.filter_cons]
  by_cases h : t.holding = true
  · simp [h, Nat.add_comm]
  · simp [h]

theorem schedInv_init (cap : Nat) (succs : List Bool) : schedInv cap (initSched cap succs) := by
  constructor
  · intro t ht
    simp only [initSched, List.mem_map] at ht
    obtain ⟨b, -, rfl⟩ := ht
    left
    refine ⟨rfl, ?_⟩
    cases b
    · exact Or.inr (Or.inl rfl)
    · exact Or.inl rfl
  · have hcount : countHolding (initSched cap succs).tasks = 0 := by
      simp only [initSched, countHolding]
      rw [List.filter_eq_nil_iff.mpr ?_]
      · rfl
      · intro t ht
        simp only [List.mem_map] at ht
        obtain ⟨b, -, rfl⟩ := ht
        simp
    rw [hcount]
    rfl

theorem schedInv_step {cap : Nat} {s s' : SchedState} (hInv : schedInv cap s)
    (hstep : SchedStep s s') : schedInv cap s' := by
  obtain ⟨hok, hsum⟩ := hInv
  cases hstep with
  | acquire pre post r n =>
    have htask := hok ⟨false, .acquire :: r⟩ (by simp)
    have hr : r = [.download, .transcribe, .release] ∨ r = [.download, .release] := by
      rcases htask with ⟨-, h1 | h1 | h1⟩ | ⟨hb, -⟩
      · rw [videoActions_true_eq] at h1
        exact Or.inl (by simpa using h1)
      · rw [videoActions_false_eq] at h1
        exact Or.inr (by simpa using h1)
      · simp at h1
      · simp at hb
    constructor
    · intro u hu
      rcases List.mem_append.mp hu with hpre | hrest
      · exact hok u (List.mem_append_left _ hpre)
      · rcases List.mem_cons.mp hrest with rfl | hpost
        · right
          refine ⟨rfl, ?_⟩
          rcases hr with rfl | rfl
          · exact Or.inl rfl
          · exact Or.inr (Or.inr (Or.inl rfl))
        · exact hok u (List.mem_append_right _ (List.mem_cons_of_mem _ hpost))
    · simp only [countHolding_append, countHolding_cons] at hsum ⊢
      simp at hsum ⊢
      omega
  | download pre post b r n =>
    have htask := hok ⟨b, .download :: r⟩ (by simp)
    have hbr : b = true ∧ (r = [.transcribe, .release] ∨ r = [.release]) := by
      rcases htask with ⟨-, h1 | h1 | h1⟩ | ⟨hb, h2 | h2 | h2 | h2⟩
      · rw [videoActions_true_eq] at h1
        simp at h1
      · rw [videoActions_false_eq] at h1
        simp at h1
      · simp at h1
      · exact ⟨hb, Or.inl (by simpa using h2)⟩
      · simp at h2
      · exact ⟨hb, Or.inr (by simpa using h2)⟩
      · simp at h2
    obtain ⟨rfl, hr⟩ := hbr
    constructor
    · intro u hu
      rcases List.mem_append.mp hu with hpre | hrest
      · exact hok u (List.mem_append_left _ hpre)
      · rcases List.mem_cons.mp hrest with rfl | hpost
        · right
          refine ⟨rfl, ?_⟩
          rcases hr with rfl | rfl
          · exact Or.inr (Or.inl rfl)
          · exact Or.inr (Or.inr (Or.inr rfl))
        · exact hok u (List.mem_append_right _ (List.mem_cons_of_mem _ hpost))
    · simp only [countHolding_append, countHolding_cons] at hsum ⊢
      simp at hsum ⊢
      omega
  | transcribe pre post b r n =>
    have htask := hok ⟨b, .transcribe :: r⟩ (by simp)
    have hbr : b = true ∧ r = [.release] := by
      rcases htask with ⟨-, h1 | h1 | h1⟩ | ⟨hb, h2 | h2 | h2 | h2⟩
      · rw [videoActions_true_eq] at h1
        simp at h1
      · rw [videoActions_false_eq] at h1
        simp at h1
      · simp at h1
      · simp at h2
      · exact ⟨hb, by simpa using h2⟩
      · simp at h2
      · simp at h2
    obtain ⟨rfl, rfl⟩ := hbr
    constructor
    · intro u hu
      rcases List.mem_append.mp hu with hpre | hrest
      · exact hok u (List.mem_append_left _ hpre)
      · rcases List.mem_cons.mp hrest with rfl | hpost
        · exact Or.inr ⟨rfl, Or.inr (Or.inr (Or.inr rfl))⟩
        · exact hok u (List.mem_append_right _ (List.mem_cons_of_mem _ hpost))
    · simp only [countHolding_append, countHolding_cons] at hsum ⊢
      simp at hsum ⊢
      omega
  | release pre post b r n =>
    have htask := hok ⟨b, .release :: r⟩ (by simp)
    have hbr : b = true ∧ r = [] := by
      rcases htask with ⟨-, h1 | h1 | h1⟩ | ⟨hb, h2 | h2 | h2 | h2⟩
      · rw [videoActions_true_eq] at h1
        simp at h1
      · rw [videoActions_false_eq] at h1
        simp at h1
      · simp at h1
      · simp at h2
      · simp at h2
      · simp at h2
      · exact ⟨hb, by simpa using h2⟩
    obtain ⟨rfl, rfl⟩ := hbr
    constructor
    · intro u hu
      rcases List.mem_append.mp hu with hpre | hrest
      · exact hok u (List.mem_append_left _ hpre)
      · rcases List.mem_cons.mp hrest with rfl | hpost
        · exact Or.inl ⟨rfl, Or.inr (Or.inr rfl)⟩
        · exact hok u (List.mem_append_right _ (List.mem_cons_of_mem _ hpost))
    · simp only [countHolding_append, countHolding_cons] at hsum ⊢
      simp at hsum ⊢
      omega

theorem schedInv_reachable {cap : Nat} {succs : List Bool} {s : SchedState}
    (h : SchedReachable cap succs s) : schedInv cap s := by
  induction h with
  | init => exact schedInv_init cap succs
  | step _ hs ih => exact schedInv_step ih hs

/-- C1 — counterexample.  The per-video phase trace read off the code keeps
the semaphore release after the transcription: the `async with
download_semaphore:` block (lines 189-195) contains the transcription call,
so the trace of a video with a successful download is
acquire, download, transcribe, release — not the order the claim asserts
(release as soon as the download completes, transcription outside the
gate). -/
theorem c1_counterexample :
    videoActions true = [.acquire, .download, .transcribe, .release] ∧
    videoActions true ≠ [.acquire, .download, .release, .transcribe] := by
  exact ⟨rfl, by decide⟩

/-- C1 (amended): the counting gate is acquired before the download starts
and released only when the whole `async with` body — download and, on
success, transcription — has finished; transcription therefore runs inside
the gate, and in every reachable state of any schedule at most
`max_simultaneous_downloads` videos are between acquire and release (so
downloads and transcriptions together, not downloads alone, are bounded by
the capacity; a task about to transcribe always holds the gate). -/
theorem c1_gate_spans_download_and_transcription (cap : Nat) (succs : List Bool)
    (s : SchedState) (h : SchedReachable cap succs s) :
    countHolding s.tasks ≤ cap ∧
    (∀ pre post (b : Bool) (r : List GateAction),
      s.tasks = pre ++ (⟨b, .transcribe :: r⟩ : GateTask) :: post → b = true) ∧
    videoActions true = [.acquire, .download, .transcribe, .release] := by
  obtain ⟨hok, hsum⟩ := schedInv_reachable h
  refine ⟨by omega, ?_, rfl⟩
  intro pre post b r heq
  have htask := hok ⟨b, .transcribe :: r⟩ (by rw [heq]; simp)
  rcases htask with ⟨-, h1 | h1 | h1⟩ | ⟨hb, -⟩
  · rw [videoActions_true_eq] at h1
    simp at h1
  · rw [videoActions_false_eq] at h1
    simp at h1
  · simp at h1
  · exact hb

/-- C1 — witness: the amended theorem applied to the initial state of a run
with capacity 2 and three videos. -/
theorem c1_witness :
    countHolding (initSched 2 [true, true, true]).tasks ≤ 2 :=
  (c1_gate_spans_download_and_transcription 2 [true, true, true] _
    SchedReachable.init).1
